import Mathlib

/-!
Verification of the surflux-sdk event-dispatch engine.

Shallow embedding of the resumable, pattern-matched event dispatch engine
of `src/utils.ts` and the `SurfluxPackageEventsClient` of `src/cli.ts`:
JavaScript values appearing in payloads are modelled by `JSVal`,
timestamps (`number | undefined`) by `Option Int`, the subscription
`Map<string, EventHandler[]>` by an insertion-ordered association list,
and handler references by natural-number identifiers (structural equality
of identifiers models JavaScript reference equality `===`).
-/

namespace Surflux

/-- A JavaScript value as it can appear in an event payload.  `undefined` is
`undefined`; `obj` is an object as an ordered field list (first binding
wins on lookup, as produced by JSON parsing where later keys overwrite —
for our purposes field lists are duplicate-free). NaN and arrays are not
needed by any payload the engine inspects. -/
inductive JSVal : Type
  | undefined : JSVal
  | null : JSVal
  | jbool : Bool → JSVal
  | num : Int → JSVal
  | str : String → JSVal
  | obj : List (String × JSVal) → JSVal

/-- JavaScript truthiness of a `JSVal`: `undefined`, `null`, `false`, `0`
and `""` are falsy, everything else (objects included) is truthy. -/
def jsTruthy : JSVal → Bool
  | .undefined => false
  | .null => false
  | .jbool b => b
  | .num n => n ≠ 0
  | .str s => s ≠ ""
  | .obj _ => true

/-- Property access `v.f`: field lookup on objects, `undefined` on
primitive receivers (a `null`/`undefined` receiver, which would throw in
JavaScript, does not occur in the payloads the engine builds). -/
def jsGet (v : JSVal) (field : String) : JSVal :=
  match v with
  | .obj fields =>
    match fields.lookup field with
    | some w => w
    | none => .undefined
  | _ => .undefined

/-- Whether an object value carries the field at all (present even when
its value is falsy). -/
def jsHasField (v : JSVal) (field : String) : Bool :=
  match v with
  | .obj fields => (fields.lookup field).isSome
  | _ => false

/-! ### `src/utils.ts` : timestamp helpers -/

/-- `shouldFilterEventByTimestamp(eventTimestampMs, fromTimestampMs)`
from `src/utils.ts` (lines 212–220): returns `true` when the event must
be skipped.  If either value is `undefined` the event is not filtered;
otherwise it is filtered exactly when `eventTimestampMs <= fromTimestampMs`. -/
def shouldFilterEventByTimestamp
    (eventTimestampMs fromTimestampMs : Option Int) : Bool :=
  match fromTimestampMs, eventTimestampMs with
  | none, _ => false
  | _, none => false
  | some fromTs, some evTs => evTs ≤ fromTs

/-- `updateLatestTimestamp(eventTimestampMs, currentLatestTimestampMs)`
from `src/utils.ts` (lines 228–241): keeps the running maximum of the
timestamps seen, ignoring `undefined` event timestamps. -/
def updateLatestTimestamp
    (eventTimestampMs currentLatestTimestampMs : Option Int) : Option Int :=
  match eventTimestampMs with
  | none => currentLatestTimestampMs
  | some evTs =>
    match currentLatestTimestampMs with
    | none => some evTs
    | some cur => if evTs > cur then some evTs else some cur

/-! ### `src/utils.ts` : `matchesPattern`

The source builds a JavaScript regular expression:

  `new RegExp('^' + pattern.replace(/\*/g, '.*') + '$').test(eventType)`

so each `*` of the pattern becomes the regex `.*` and every other
character is handed to the regex engine verbatim.  We embed the regex
semantics for the characters the translation can produce: after the
replacement, every `*` in the regex source is part of an inserted `.*`,
so the regex consists of literal characters, `.` (any single character
except a line terminator — construed without the `s` flag), and `.*`
(any run of such characters).  Patterns containing a regex
metacharacter other than `.` and `*` (`\ ( ) [ ] | ^ $ + ? /` and the
braces) are outside this model; `patternRegexSafe` delimits the faithful
domain and guards every theorem quantifying over patterns. -/

/-- One token of the translated regular expression. -/
inductive Tok : Type
  | lit : Char → Tok
  | anyOne : Tok
  | anyStar : Tok
  deriving Repr, DecidableEq

/-- Line terminators, which the JavaScript `.` (without the `s` flag)
does not match. -/
def isLineTerm (c : Char) : Bool :=
  c = '\n' || c = '\r' || c = '\u2028' || c = '\u2029'

/-- Regex metacharacters other than `.` and `*`: a pattern containing one
of these is interpreted by the regex engine in ways outside this model. -/
def isRegexMeta (c : Char) : Bool :=
  c = '\\' || c = '(' || c = ')' || c = '[' || c = ']' ||
  c = '\x7b' || c = '\x7d' || c = '|' || c = '^' || c = '$' ||
  c = '+' || c = '?'

/-- The faithful domain of the `matchesPattern` embedding. -/
def patternRegexSafe (pattern : String) : Bool :=
  pattern.data.all (fun c => !isRegexMeta c)

/-- Tokenization of the translated regex `pattern.replace(/\*/g, '.*')`:
`*` becomes `.*` (star applied to the dot atom), `.` is the dot atom,
any other (safe) character is a literal atom. -/
def globTokens (pattern : String) : List Tok :=
  pattern.data.map (fun c =>
    if c = '*' then Tok.anyStar
    else if c = '.' then Tok.anyOne
    else Tok.lit c)

/-- Anchored matching of the token list against the character list: the
semantics of the `^ … $` regex test.  A literal atom consumes exactly
its character, the dot atom consumes one non-line-terminator character,
and `.*` consumes some prefix of `k` non-line-terminator characters for
a choice of `k`. -/
def tokMatch : List Tok → List Char → Bool
  | [], ds => ds.isEmpty
  | Tok.lit c :: ts, ds =>
    match ds with
    | [] => false
    | d :: ds' => c == d && tokMatch ts ds'
  | Tok.anyOne :: ts, ds =>
    match ds with
    | [] => false
    | d :: ds' => !isLineTerm d && tokMatch ts ds'
  | Tok.anyStar :: ts, ds =>
    (List.range (ds.length + 1)).any fun k =>
      (ds.take k).all (fun d => !isLineTerm d) && tokMatch ts (ds.drop k)

/-- `matchesPattern(eventType, pattern)` from `src/utils.ts`
(lines 103–110): `true` outright for the universal pattern `"*"`,
otherwise the anchored regex test described above. -/
def matchesPattern (eventType pattern : String) : Bool :=
  if pattern = "*" then true
  else tokMatch (globTokens pattern) eventType.data

/-! ### `src/cli.ts` : `SurfluxPackageEventsClient`

The subscription registry `Map<string, EventHandler<unknown>[]>` is an
insertion-ordered association list with unique keys (a JavaScript `Map`
iterates in insertion order; `delete` keeps the order of the rest and a
later `set` of the same key re-inserts at the end).  Handlers are
natural-number identifiers; `==` on identifiers models reference
equality `===` on handler functions. -/

/-- A handler reference. -/
abbrev Handler := Nat

/-- The subscription registry. -/
abbrev Subs := List (String × List Handler)

/-- `Map.get`: the handler list registered under a pattern, if any. -/
def subsGet (subs : Subs) (pattern : String) : Option (List Handler) :=
  subs.lookup pattern

/-- `Map.delete`: removes the entry for a pattern (key occurs at most
once; relative order of the remaining entries is preserved). -/
def subsDelete (subs : Subs) (pattern : String) : Subs :=
  subs.filter (fun q => q.1 != pattern)

/-- `on(eventType, handler)` from `src/cli.ts` (lines 551–556): creates
the entry if absent, then pushes the handler at the end of its list
(`on` is a Lean keyword, hence the name `onReg`). -/
def onReg (subs : Subs) (eventType : String) (handler : Handler) : Subs :=
  if (subsGet subs eventType).isSome then
    subs.map (fun q => if q.1 = eventType then (q.1, q.2 ++ [handler]) else q)
  else
    subs ++ [(eventType, [handler])]

/-- `off(eventType, handler?)` from `src/cli.ts` (lines 559–575).
Without a handler: delete the whole entry.  With one: `indexOf` +
`splice` removes the first occurrence if present (`List.erase` has
exactly these semantics), then the entry is deleted if its list is now
empty. -/
def off (subs : Subs) (eventType : String) (handler : Option Handler) : Subs :=
  match handler with
  | none => subsDelete subs eventType
  | some h =>
    match subsGet subs eventType with
    | none => subs
    | some handlers =>
      let handlers' := handlers.erase h
      if handlers'.length = 0 then subsDelete subs eventType
      else subs.map (fun q => if q.1 = eventType then (q.1, handlers') else q)

/-- The canonical envelope `SurfluxEvent` of `src/cli.ts`: `type`,
optional `timestamp_ms` / `checkpoint_id` / `tx_hash`, and a `data`
payload holding `contents` plus optional metadata fields (kept as one
`JSVal` since the engine only reads `data.contents`). -/
structure SurfluxEvent where
  type : String
  timestamp_ms : Option Int
  checkpoint_id : Option Int
  tx_hash : Option String
  data : JSVal

/-- The rich wire shape `SurfluxPackageEvent` of `src/cli.ts` (its
`type` field is the fixed discriminant `'package_event'`).  The engine
passes it through to `*` subscribers untouched, so its fields are only
carried, never inspected. -/
structure SurfluxPackageEvent where
  timestamp_ms : Int
  checkpoint_id : Int
  tx_hash : String
  event_index : Int
  sender : String
  event_type : String
  contents : JSVal

/-- What a handler can be invoked with. -/
inductive HandlerArg : Type
  | val : JSVal → HandlerArg
  | canonical : SurfluxEvent → HandlerArg
  | rich : SurfluxPackageEvent → HandlerArg

/-- The mutable client fields that event handling touches
(`fromTimestampMs` is fixed after `connect`; `latestTimestampMs` starts
out `undefined`). -/
structure ClientState where
  subscriptions : Subs
  fromTimestampMs : Option Int
  latestTimestampMs : Option Int

/-- The JavaScript `split('::')` on the underlying character list:
scanning left to right, each leftmost occurrence of `::` ends the
current part (so `"a:::b"` splits as `["a", ":b"]` and the result is
never the empty list, exactly as `String.prototype.split`). -/
def splitDoubleColon : List Char → List (List Char)
  | [] => [[]]
  | ':' :: ':' :: rest => [] :: splitDoubleColon rest
  | c :: rest =>
    match splitDoubleColon rest with
    | [] => [[c]]
    | p :: ps => (c :: p) :: ps

/-- `parts[parts.length - 1]` of `event.type.split('::')`: the trailing
short name of a qualified event type. -/
def eventShortName (t : String) : String :=
  String.mk ((splitDoubleColon t.data).getLastD [])

/-- The `handlerEntries` list built by `handleEvent` (`src/cli.ts`
lines 500–533): exact-type handlers, then short-name handlers, then `*`
handlers (flagged as wildcard), then — iterating the registry in
insertion order — the handlers of every other pattern that contains `*`
and matches the type. -/
def matchedEntries (subs : Subs) (etype : String) : List (Handler × Bool) :=
  let eventTypeName := eventShortName etype
  let entries₁ :=
    match subsGet subs etype with
    | some hs => hs.map (fun h => (h, false))
    | none => []
  let entries₂ :=
    match subsGet subs eventTypeName with
    | some hs => entries₁ ++ hs.map (fun h => (h, false))
    | none => entries₁
  let entries₃ :=
    match subsGet subs "*" with
    | some hs => entries₂ ++ hs.map (fun h => (h, true))
    | none => entries₂
  subs.foldl
    (fun acc q =>
      if q.1 = "*" then acc
      else if q.1.data.contains '*' && matchesPattern etype q.1 then
        acc ++ q.2.map (fun h => (h, false))
      else acc)
    entries₃

/-- The argument a matched handler is called with (`src/cli.ts`
lines 535–549): a wildcard entry gets the rich `fullPackageEvent` when
one exists, else the canonical envelope; a non-wildcard entry gets
`event.data.contents || event.data` — the contents when truthy,
otherwise the whole `data` object. -/
def deliveredPayload (event : SurfluxEvent)
    (fullPackageEvent : Option SurfluxPackageEvent) (isWildcard : Bool) :
    HandlerArg :=
  if isWildcard then
    match fullPackageEvent with
    | some p => .rich p
    | none => .canonical event
  else
    let contents := jsGet event.data "contents"
    if jsTruthy contents then .val contents else .val event.data

/-- `handleEvent(event, fullPackageEvent?)` from `src/cli.ts`
(lines 491–549) as a pure step: drops empty-type events, drops events
the cursor filter rejects, otherwise advances `latestTimestampMs` and
returns the handler invocations (handler, argument) in dispatch order. -/
def handleEvent (st : ClientState) (event : SurfluxEvent)
    (fullPackageEvent : Option SurfluxPackageEvent) :
    ClientState × List (Handler × HandlerArg) :=
  if event.type = "" then (st, [])
  else if shouldFilterEventByTimestamp event.timestamp_ms st.fromTimestampMs then
    (st, [])
  else
    ({ st with latestTimestampMs :=
        updateLatestTimestamp event.timestamp_ms st.latestTimestampMs },
     (matchedEntries st.subscriptions event.type).map
       (fun e => (e.1, deliveredPayload event fullPackageEvent e.2)))

/-- What one handler invocation does: it either returns or throws (the
`catch` in the dispatch loop turns a throw into a log line). -/
inductive HandlerOutcome : Type
  | ok : HandlerOutcome
  | threw : HandlerOutcome

/-- The `handlerEntries.forEach` dispatch loop with its per-invocation
`try`/`catch`: every entry is invoked in order and an exceptional
outcome is recorded (logged) without stopping the loop. -/
def dispatchLoop (behave : Handler → HandlerArg → HandlerOutcome) :
    List (Handler × HandlerArg) → List (Handler × HandlerArg × HandlerOutcome)
  | [] => []
  | (h, a) :: rest => (h, a, behave h a) :: dispatchLoop behave rest

/-- A whole session of incoming events (each with its optional rich
form), state-only view. -/
def processEvents (st : ClientState)
    (evs : List (SurfluxEvent × Option SurfluxPackageEvent)) : ClientState :=
  evs.foldl (fun s ev => (handleEvent s ev.1 ev.2).1) st

/-- A whole session including the dispatch of each event's matched
handlers under the given handler behaviour: messages are processed one
at a time in arrival order, each one dispatched through the loop before
the next; returns the final state and the concatenated invocation log. -/
def processEventsLog (behave : Handler → HandlerArg → HandlerOutcome) :
    ClientState → List (SurfluxEvent × Option SurfluxPackageEvent) →
      ClientState × List (Handler × HandlerArg × HandlerOutcome)
  | st, [] => (st, [])
  | st, ev :: rest =>
    let r := handleEvent st ev.1 ev.2
    let later := processEventsLog behave r.1 rest
    (later.1, dispatchLoop behave r.2 ++ later.2)

/-! ### `src/utils.ts` : cursor store -/

/-- The injected cache capability's stored state, as key/value pairs
(`set` overwrites in place, a fresh key is appended). -/
abbrev Cache := List (String × String)

/-- `cache.get(key)`. -/
def cacheGet (c : Cache) (key : String) : Option String :=
  c.lookup key

/-- `cache.set(key, value)`. -/
def cacheSet (c : Cache) (key value : String) : Cache :=
  if (c.lookup key).isSome then
    c.map (fun q => if q.1 = key then (key, value) else q)
  else c ++ [(key, value)]

/-- `CACHE_KEYS.PACKAGE_EVENTS` from `src/utils.ts` (line 133). -/
def PACKAGE_EVENTS_CACHE_KEY : String :=
  "surflux_package_events_last_timestamp"

/-- `saveTimestampToCache(cache, cacheKey, latestTimestampMs)` from
`src/utils.ts` (lines 190–204): a no-op when no timestamp was observed,
otherwise writes the decimal string form of the timestamp. -/
def saveTimestampToCache (cache : Cache) (cacheKey : String)
    (latestTimestampMs : Option Int) : Cache :=
  match latestTimestampMs with
  | none => cache
  | some t => cacheSet cache cacheKey (toString t)

/-- WhiteSpace and LineTerminator code points skipped by `parseInt`. -/
def jsIsWhiteSpace (c : Char) : Bool :=
  c = ' ' || c = '\t' || c = '\n' || c = '\r' || c = '\x0b' || c = '\x0c' ||
  c = '\u00a0' || c = '\u1680' ||
  (0x2000 ≤ c.toNat && c.toNat ≤ 0x200a) ||
  c = '\u2028' || c = '\u2029' || c = '\u202f' || c = '\u205f' ||
  c = '\u3000' || c = '\ufeff'

/-- Value of the longest leading run of decimal digits; `none` when that
run is empty (`parseInt` yields `NaN` then). -/
def digitsVal (cs : List Char) : Option Nat :=
  let ds := cs.takeWhile Char.isDigit
  if ds.isEmpty then none
  else some (ds.foldl (fun acc c => acc * 10 + (c.toNat - '0'.toNat)) 0)

/-- `parseInt(s, 10)`: skip leading whitespace, read an optional sign,
then take the longest prefix of decimal digits, ignoring the rest of
the string; `none` models `NaN`.  (Exact integer arithmetic: the
double-precision rounding of JavaScript numbers beyond 2^53 is outside
this model; cursor timestamps stay far below it.) -/
def jsParseIntDec (s : String) : Option Int :=
  match s.data.dropWhile jsIsWhiteSpace with
  | [] => none
  | c :: rest =>
    if c = '-' then (digitsVal rest).map (fun n => -(n : Int))
    else if c = '+' then (digitsVal rest).map (fun n => (n : Int))
    else (digitsVal (c :: rest)).map (fun n => (n : Int))

/-- The outcome of the `cache.get` call: `error` models a throwing
cache capability (caught by the function), `ok v` a read returning `v`
(`none` models `null`/`undefined`). -/
abbrev CacheReadOutcome := Except Unit (Option String)

/-- `loadTimestampFromCache(cache, cacheKey, currentFromTimestampMs)`
from `src/utils.ts` (lines 163–185), with the cache read outcome as an
explicit argument: returns `undefined` at once when an explicit
`fromTimestampMs` is already set; otherwise reads the cache inside
`try`, and only a truthy value (`if (cachedTimestamp)`: non-null,
non-empty) whose `parseInt` is not `NaN` is returned. -/
def loadTimestampFromCache (read : CacheReadOutcome)
    (currentFromTimestampMs : Option Int) : Option Int :=
  if currentFromTimestampMs.isSome then none
  else
    match read with
    | .error _ => none
    | .ok v =>
      match v with
      | none => none
      | some s =>
        if s = "" then none
        else
          match jsParseIntDec s with
          | some n => some n
          | none => none

/-- The client state around `disconnect()`: the core dispatch state,
whether an `eventSource` transport is held, the `isConnected` flag, and
the injected cache's contents. -/
structure FullClientState where
  core : ClientState
  eventSourcePresent : Bool
  isConnected : Bool
  cache : Cache

/-- `disconnect()` from `src/cli.ts` (lines 480–489): if a transport is
held it is closed and dropped and the connected flag cleared; then —
unconditionally — `saveTimestampToCache` runs with the session's
`latestTimestampMs`. -/
def disconnect (st : FullClientState) : FullClientState :=
  let st₁ :=
    if st.eventSourcePresent then
      { st with eventSourcePresent := false, isConnected := false }
    else st
  let cache' :=
    saveTimestampToCache st₁.cache PACKAGE_EVENTS_CACHE_KEY
      st₁.core.latestTimestampMs
  { st₁ with cache := cache' }

/-- The timestamps that survive the cursor filter in a session: one per
event with a non-empty type that the filter lets through and that
carries a timestamp.  The threshold is constant across a session:
`handleEvent` never writes `fromTimestampMs`. -/
def sessionPassedTimestamps (fromTs : Option Int)
    (evs : List (SurfluxEvent × Option SurfluxPackageEvent)) : List Int :=
  evs.filterMap (fun ev =>
    if ev.1.type = "" then none
    else if shouldFilterEventByTimestamp ev.1.timestamp_ms fromTs then none
    else ev.1.timestamp_ms)

/-! ### Specification-side definitions

These state the spec's words, to be compared with the source-derived
definitions above. -/

/-- Declarative glob matching of a token list against a character list:
a literal matches exactly itself, `.` matches one character that is not
a line terminator, and `.*` matches any run of such characters. -/
inductive GMatch : List Tok → List Char → Prop
  | nil : GMatch [] []
  | lit {c : Char} {ts : List Tok} {ds : List Char} :
      GMatch ts ds → GMatch (Tok.lit c :: ts) (c :: ds)
  | one {d : Char} {ts : List Tok} {ds : List Char} :
      isLineTerm d = false → GMatch ts ds → GMatch (Tok.anyOne :: ts) (d :: ds)
  | starEmpty {ts : List Tok} {ds : List Char} :
      GMatch ts ds → GMatch (Tok.anyStar :: ts) ds
  | starCons {d : Char} {ts : List Tok} {ds : List Char} :
      isLineTerm d = false → GMatch (Tok.anyStar :: ts) ds →
      GMatch (Tok.anyStar :: ts) (d :: ds)

/-- The spec's `matchAll` (§4.4), written from the spec's words for
comparison with the source-derived `matchedEntries`: every entry whose
pattern satisfies the event type, in the fixed precedence order —
(1) exact full-type equality, contents-only; (2) equality with the
trailing short name, contents-only; (3) the universal wildcard `*`,
full-envelope; (4) every other pattern containing `*` that matches the
full type, contents-only.  The boolean marks full-envelope delivery. -/
def matchAllSpec (subs : Subs) (etype : String) : List (Handler × Bool) :=
  (((subsGet subs etype).getD []).map fun h => (h, false)) ++
  (((subsGet subs (eventShortName etype)).getD []).map fun h => (h, false)) ++
  (((subsGet subs "*").getD []).map fun h => (h, true)) ++
  ((subs.filter fun q =>
      q.1 != "*" && q.1.data.contains '*' && matchesPattern etype q.1).map
    fun q => q.2.map fun h => (h, false)).flatten

/-- The claim's "valid integer string" — an optional sign followed by at
least one decimal digit and nothing else — written from the spec's
words, for comparison with `parseInt`'s prefix semantics. -/
def specValidIntegerString (s : String) : Bool :=
  match s.data with
  | '-' :: rest => !rest.isEmpty && rest.all Char.isDigit
  | '+' :: rest => !rest.isEmpty && rest.all Char.isDigit
  | cs => !cs.isEmpty && cs.all Char.isDigit

/-! ### `src/cli.ts` : `waitFor`

The waiter's lifecycle as a state machine.  Its state is the client's
dispatch state plus the waiter's own closure state: whether the
`setTimeout` timer is still armed, and the promise's settlement (a
JavaScript promise keeps its first settlement; `promiseSettle` encodes
that).  One trigger is either an incoming event — dispatched through
`handleEvent`, each invocation of the one-shot handler running its
body: `clearTimeout`, `off`, `resolve` — or the timer firing, which
runs the timeout callback: `off`, `reject`. -/

/-- How a `waitFor` promise settled. -/
inductive Settle : Type
  | resolved : HandlerArg → Settle
  | timedOut : Settle

/-- A promise records only its first settlement. -/
def promiseSettle (cur : Option Settle) (s : Settle) : Option Settle :=
  match cur with
  | none => some s
  | some r => some r

/-- The waiter's state. -/
structure WaitState where
  client : ClientState
  pattern : String
  h : Handler
  timerActive : Bool
  result : Option Settle

/-- An occurrence the waiter can observe. -/
inductive WaitTrigger : Type
  | ev : SurfluxEvent → Option SurfluxPackageEvent → WaitTrigger
  | timerFire : WaitTrigger

/-- `waitFor(eventType, timeout?)` registration (`src/cli.ts`
lines 581–598): registers the fresh one-shot handler via `on` and arms
the timer when a timeout is given; the promise is pending. -/
def waitForStart (st : ClientState) (pattern : String) (h : Handler)
    (hasTimeout : Bool) : WaitState :=
  { client := { st with subscriptions := onReg st.subscriptions pattern h },
    pattern := pattern, h := h, timerActive := hasTimeout, result := none }

/-- The body of the one-shot handler: cancel the timer, unregister
itself, resolve with the delivered payload. -/
def waiterHandlerEffect (w : WaitState) (a : HandlerArg) : WaitState :=
  { w with
    timerActive := false,
    client := { w.client with
      subscriptions := off w.client.subscriptions w.pattern (some w.h) },
    result := promiseSettle w.result (Settle.resolved a) }

/-- One trigger: an event is dispatched (each invocation of the waiter's
handler runs its body; foreign handlers do not touch the waiter state),
or the armed timer fires its callback (unregister, reject). -/
def waitStep (w : WaitState) : WaitTrigger → WaitState
  | .ev e fpe =>
    let r := handleEvent w.client e fpe
    let w₁ := { w with client := r.1 }
    r.2.foldl (fun acc inv =>
      if inv.1 = w.h then waiterHandlerEffect acc inv.2 else acc) w₁
  | .timerFire =>
    if w.timerActive then
      { w with
        timerActive := false,
        client := { w.client with
          subscriptions := off w.client.subscriptions w.pattern (some w.h) },
        result := promiseSettle w.result Settle.timedOut }
    else w

/-- A whole trace of triggers. -/
def waitRun (w : WaitState) (ts : List WaitTrigger) : WaitState :=
  ts.foldl waitStep w

/-- How often one trigger invokes the waiter's handler. -/
def stepInvokesH (w : WaitState) : WaitTrigger → Nat
  | .ev e fpe =>
    ((handleEvent w.client e fpe).2.filter fun inv => inv.1 == w.h).length
  | .timerFire => 0

/-- How often a whole trace invokes the waiter's handler. -/
def runInvokesH : WaitState → List WaitTrigger → Nat
  | _, [] => 0
  | w, t :: ts => stepInvokesH w t + runInvokesH (waitStep w t) ts

/-- A handler reference that occurs nowhere in the registry (a freshly
created closure). -/
def HandlerFresh (subs : Subs) (h : Handler) : Prop :=
  ∀ q ∈ subs, h ∉ q.2

/-! ## Registry lemmas -/

theorem subsGet_cons_self (p : String) (v : List Handler) (t : Subs) :
    subsGet ((p, v) :: t) p = some v := by
  simp [subsGet, List.lookup]

theorem subsGet_cons_ne {q k : String} (v : List Handler) (t : Subs)
    (hq : q ≠ k) : subsGet ((k, v) :: t) q = subsGet t q := by
  simp [subsGet, List.lookup, beq_false_of_ne hq]

theorem subsDelete_cons_self (p : String) (v : List Handler) (t : Subs) :
    subsDelete ((p, v) :: t) p = subsDelete t p := by
  simp [subsDelete, List.filter_cons]

theorem subsDelete_cons_ne {k p : String} (v : List Handler) (t : Subs)
    (hk : k ≠ p) :
    subsDelete ((k, v) :: t) p = (k, v) :: subsDelete t p := by
  simp [subsDelete, List.filter_cons, hk]

theorem subsGet_subsDelete_self (subs : Subs) (p : String) :
    subsGet (subsDelete subs p) p = none := by
  induction subs with
  | nil => rfl
  | cons q rest ih =>
    obtain ⟨k, v⟩ := q
    by_cases hk : k = p
    · subst hk
      rw [subsDelete_cons_self]
      exact ih
    · rw [subsDelete_cons_ne v rest hk, subsGet_cons_ne v _ (Ne.symm hk)]
      exact ih

theorem subsGet_subsDelete_other (subs : Subs) (p q : String) (hq : q ≠ p) :
    subsGet (subsDelete subs p) q = subsGet subs q := by
  induction subs with
  | nil => rfl
  | cons r rest ih =>
    obtain ⟨k, v⟩ := r
    by_cases hk : k = p
    · subst hk
      rw [subsDelete_cons_self, subsGet_cons_ne v rest hq]
      exact ih
    · by_cases hqk : q = k
      · subst hqk
        rw [subsDelete_cons_ne v rest hk, subsGet_cons_self, subsGet_cons_self]
      · rw [subsDelete_cons_ne v rest hk, subsGet_cons_ne v _ hqk,
          subsGet_cons_ne v rest hqk]
        exact ih

theorem subsGet_mapUpd_self (subs : Subs) (p : String)
    (f : List Handler → List Handler) :
    subsGet (subs.map fun r => if r.1 = p then (r.1, f r.2) else r) p
      = (subsGet subs p).map f := by
  induction subs with
  | nil => rfl
  | cons r rest ih =>
    obtain ⟨k, w⟩ := r
    by_cases hk : k = p
    · subst hk
      simp [List.map_cons, subsGet_cons_self]
    · simp only [List.map_cons, if_neg hk, subsGet_cons_ne w rest (Ne.symm hk),
        subsGet_cons_ne w _ (Ne.symm hk)]
      exact ih

theorem subsGet_mapUpd_other (subs : Subs) (p q : String)
    (f : List Handler → List Handler) (hq : q ≠ p) :
    subsGet (subs.map fun r => if r.1 = p then (r.1, f r.2) else r) q
      = subsGet subs q := by
  induction subs with
  | nil => rfl
  | cons r rest ih =>
    obtain ⟨k, w⟩ := r
    by_cases hk : k = p
    · subst hk
      simp only [List.map_cons, if_true, eq_self_iff_true,
        subsGet_cons_ne w rest hq, subsGet_cons_ne (f w) _ hq]
      exact ih
    · by_cases hqk : q = k
      · subst hqk
        simp only [List.map_cons, if_neg hk, subsGet_cons_self]
      · simp only [List.map_cons, if_neg hk, subsGet_cons_ne w rest hqk,
          subsGet_cons_ne w _ hqk]
        exact ih

theorem subsGet_append_single_self (subs : Subs) (p : String)
    (v : List Handler) (hnone : subsGet subs p = none) :
    subsGet (subs ++ [(p, v)]) p = some v := by
  induction subs with
  | nil => exact subsGet_cons_self p v []
  | cons r rest ih =>
    obtain ⟨k, w⟩ := r
    by_cases hk : p = k
    · subst hk
      rw [subsGet_cons_self] at hnone
      exact absurd hnone (by simp)
    · rw [subsGet_cons_ne w rest hk] at hnone
      rw [List.cons_append, subsGet_cons_ne w _ hk]
      exact ih hnone

theorem subsGet_append_single_other (subs : Subs) (p q : String)
    (v : List Handler) (hq : q ≠ p) :
    subsGet (subs ++ [(p, v)]) q = subsGet subs q := by
  induction subs with
  | nil => simpa using subsGet_cons_ne v [] hq
  | cons r rest ih =>
    obtain ⟨k, w⟩ := r
    by_cases hqk : q = k
    · subst hqk
      rw [List.cons_append, subsGet_cons_self, subsGet_cons_self]
    · rw [List.cons_append, subsGet_cons_ne w _ hqk, subsGet_cons_ne w rest hqk]
      exact ih

theorem subsGet_onReg_self (subs : Subs) (p : String) (h : Handler) :
    subsGet (onReg subs p h) p = some ((subsGet subs p).getD [] ++ [h]) := by
  unfold onReg
  cases hg : subsGet subs p with
  | none =>
    simpa [hg] using subsGet_append_single_self subs p [h] hg
  | some hs =>
    simpa [hg] using subsGet_mapUpd_self subs p (fun l => l ++ [h])

theorem subsGet_onReg_other (subs : Subs) (p q : String) (h : Handler)
    (hq : q ≠ p) :
    subsGet (onReg subs p h) q = subsGet subs q := by
  unfold onReg
  cases hg : subsGet subs p with
  | none =>
    simpa [hg] using subsGet_append_single_other subs p q [h] hq
  | some hs =>
    simpa [hg] using subsGet_mapUpd_other subs p q (fun l => l ++ [h]) hq

/-! ## C1 : strict cursor filtering -/

/-- **C1.**  For a defined cursor value `C` and an event timestamp `T`,
the cursor filter passes the event iff `T` is undefined or `T > C`
(strict); an event with `T = C` is filtered out; an undefined cursor
passes every event; and in `handleEvent` a filtered event is dropped
whole (state untouched, nobody invoked) while a passing event is
dispatched to the matching entries with its timestamp folded into the
tracker. -/
theorem cursor_filter_strict_dispatch (C : Int) (T : Option Int)
    (st : ClientState) (event : SurfluxEvent)
    (fpe : Option SurfluxPackageEvent) (hty : event.type ≠ "")
    (hts : event.timestamp_ms = T) (hfrom : st.fromTimestampMs = some C) :
    (shouldFilterEventByTimestamp T (some C) = false ↔
      T = none ∨ ∃ t, T = some t ∧ C < t)
    ∧ shouldFilterEventByTimestamp (some C) (some C) = true
    ∧ (∀ T', shouldFilterEventByTimestamp T' none = false)
    ∧ (shouldFilterEventByTimestamp T (some C) = true →
        handleEvent st event fpe = (st, []))
    ∧ (shouldFilterEventByTimestamp T (some C) = false →
        handleEvent st event fpe =
          ({ st with latestTimestampMs :=
              updateLatestTimestamp T st.latestTimestampMs },
           (matchedEntries st.subscriptions event.type).map
             (fun en => (en.1, deliveredPayload event fpe en.2)))) := by
  refine ⟨?_, ?_, ?_, ?_, ?_⟩
  · cases T with
    | none => simp [shouldFilterEventByTimestamp]
    | some t => simp [shouldFilterEventByTimestamp, not_le]
  · simp [shouldFilterEventByTimestamp]
  · intro T'
    cases T' <;> simp [shouldFilterEventByTimestamp]
  · intro hf
    subst hts
    simp [handleEvent, hty, hfrom, hf]
  · intro hf
    subst hts
    simp [handleEvent, hty, hfrom, hf]

/-- Witness for C1 at `C = 100`, `T = some 101`. -/
theorem cursor_filter_strict_dispatch_witness :
    (⟨"evt", some 101, none, none, JSVal.undefined⟩ : SurfluxEvent).type ≠ ""
    ∧ (⟨[], some 100, none⟩ : ClientState).fromTimestampMs = some 100
    ∧ ((shouldFilterEventByTimestamp (some 101) (some 100) = false ↔
          (some 101 : Option Int) = none ∨
            ∃ t, (some 101 : Option Int) = some t ∧ (100 : Int) < t)
      ∧ shouldFilterEventByTimestamp (some 100) (some 100) = true
      ∧ (∀ T', shouldFilterEventByTimestamp T' none = false)
      ∧ (shouldFilterEventByTimestamp (some 101) (some 100) = true →
          handleEvent ⟨[], some 100, none⟩
            ⟨"evt", some 101, none, none, JSVal.undefined⟩ none
            = (⟨[], some 100, none⟩, []))
      ∧ (shouldFilterEventByTimestamp (some 101) (some 100) = false →
          handleEvent ⟨[], some 100, none⟩
            ⟨"evt", some 101, none, none, JSVal.undefined⟩ none
            = ((⟨[], some 100,
                  updateLatestTimestamp (some 101) none⟩ : ClientState),
               (matchedEntries [] "evt").map
                 (fun en =>
                   (en.1, deliveredPayload
                     ⟨"evt", some 101, none, none, JSVal.undefined⟩ none en.2))))) :=
  ⟨by decide, rfl,
    cursor_filter_strict_dispatch 100 (some 101) ⟨[], some 100, none⟩
      ⟨"evt", some 101, none, none, JSVal.undefined⟩ none (by decide) rfl rfl⟩

/-! ## C10 : the latest-timestamp tracker -/

/-- **C10.**  For an event with a non-empty type that passes the cursor
filter, `handleEvent` folds the event's timestamp into the tracker via
`updateLatestTimestamp` — independently of the registry, in particular
also when no subscription matches (empty registry: tracker still
updated, nobody invoked) — and the tracker is non-decreasing across any
`handleEvent` step. -/
theorem latest_tracker_updated_and_monotone (st : ClientState)
    (event : SurfluxEvent) (fpe : Option SurfluxPackageEvent)
    (hty : event.type ≠ "")
    (hpass : shouldFilterEventByTimestamp event.timestamp_ms
      st.fromTimestampMs = false) :
    (handleEvent st event fpe).1.latestTimestampMs
      = updateLatestTimestamp event.timestamp_ms st.latestTimestampMs
    ∧ (∀ subs', (handleEvent { st with subscriptions := subs' } event
          fpe).1.latestTimestampMs
        = updateLatestTimestamp event.timestamp_ms st.latestTimestampMs)
    ∧ (handleEvent { st with subscriptions := [] } event fpe).2 = []
    ∧ (∀ st' e' fpe' v, st'.latestTimestampMs = some v →
        ∃ v', (handleEvent st' e' fpe').1.latestTimestampMs = some v'
          ∧ v ≤ v') := by
  refine ⟨?_, ?_, ?_, ?_⟩
  · simp [handleEvent, hty, hpass]
  · intro subs'
    simp [handleEvent, hty, hpass]
  · simp [handleEvent, hty, hpass, matchedEntries, subsGet, List.lookup]
  · intro st' e' fpe' v hv
    by_cases h1 : e'.type = ""
    · exact ⟨v, by simp [handleEvent, h1, hv], le_refl v⟩
    · by_cases h2 : shouldFilterEventByTimestamp e'.timestamp_ms
        st'.fromTimestampMs = true
      · exact ⟨v, by simp [handleEvent, h1, h2, hv], le_refl v⟩
      · have hle : (handleEvent st' e' fpe').1.latestTimestampMs
            = updateLatestTimestamp e'.timestamp_ms (some v) := by
          simp [handleEvent, h1, h2, hv]
        cases hts' : e'.timestamp_ms with
        | none => exact ⟨v, by rw [hle, hts']; rfl, le_refl v⟩
        | some ts =>
          by_cases h3 : ts > v
          · refine ⟨ts, ?_, le_of_lt h3⟩
            rw [hle, hts']
            simp [updateLatestTimestamp, h3]
          · refine ⟨v, ?_, le_refl v⟩
            rw [hle, hts']
            simp [updateLatestTimestamp, h3]

/-- Witness for C10: empty registry, timestamp 7 tracked. -/
theorem latest_tracker_updated_and_monotone_witness :
    (⟨"t::E", some 7, none, none, JSVal.undefined⟩ : SurfluxEvent).type ≠ ""
    ∧ shouldFilterEventByTimestamp (some 7) none = false
    ∧ ((handleEvent ⟨[], none, none⟩
          ⟨"t::E", some 7, none, none, JSVal.undefined⟩ none).1.latestTimestampMs
        = updateLatestTimestamp (some 7) none
      ∧ (∀ subs', (handleEvent (⟨subs', none, none⟩ : ClientState)
            ⟨"t::E", some 7, none, none, JSVal.undefined⟩ none).1.latestTimestampMs
          = updateLatestTimestamp (some 7) none)
      ∧ (handleEvent (⟨[], none, none⟩ : ClientState)
          ⟨"t::E", some 7, none, none, JSVal.undefined⟩ none).2 = []
      ∧ (∀ st' e' fpe' v, st'.latestTimestampMs = some v →
          ∃ v', (handleEvent st' e' fpe').1.latestTimestampMs = some v'
            ∧ v ≤ v')) :=
  ⟨by decide, rfl,
    latest_tracker_updated_and_monotone ⟨[], none, none⟩
      ⟨"t::E", some 7, none, none, JSVal.undefined⟩ none (by decide) rfl⟩

/-! ## C7 : unregister semantics -/

/-- **C7.**  `off(pattern)` without a handler deletes the whole entry —
every handler registered under the pattern is gone — while other
patterns are untouched; `off(pattern, h)` removes exactly the first
occurrence of `h` (the handler list `l₁ ++ h :: l₂` with `h ∉ l₁`
becomes `l₁ ++ l₂`, so later duplicates survive), deletes the entry when
it empties, and leaves other patterns untouched. -/
theorem off_unregister_semantics (subs : Subs) (pattern : String)
    (h : Handler) (l₁ l₂ : List Handler)
    (hget : subsGet subs pattern = some (l₁ ++ h :: l₂)) (hnot : h ∉ l₁) :
    subsGet (off subs pattern none) pattern = none
    ∧ (∀ q, q ≠ pattern →
        subsGet (off subs pattern none) q = subsGet subs q)
    ∧ subsGet (off subs pattern (some h)) pattern
        = (if l₁ ++ l₂ = [] then none else some (l₁ ++ l₂))
    ∧ (∀ q, q ≠ pattern →
        subsGet (off subs pattern (some h)) q = subsGet subs q) := by
  have herase : (l₁ ++ h :: l₂).erase h = l₁ ++ l₂ := by
    rw [List.erase_append_right _ hnot, List.erase_cons_head]
  refine ⟨?_, ?_, ?_, ?_⟩
  · exact subsGet_subsDelete_self subs pattern
  · intro q hq
    exact subsGet_subsDelete_other subs pattern q hq
  · simp only [off, hget, herase]
    by_cases hemp : l₁ ++ l₂ = []
    · simp [hemp, subsGet_subsDelete_self]
    · have hlen : ¬ (l₁ ++ l₂).length = 0 := by
        simpa [List.length_eq_zero] using hemp
      simp only [hlen, if_neg, if_false, hemp]
      exact subsGet_mapUpd_self subs pattern (fun _ => l₁ ++ l₂) |>.trans
        (by rw [hget]; rfl)
  · intro q hq
    simp only [off, hget, herase]
    by_cases hemp : l₁ ++ l₂ = []
    · simp only [hemp, List.length_nil, if_pos rfl]
      exact subsGet_subsDelete_other subs pattern q hq
    · have hlen : ¬ (l₁ ++ l₂).length = 0 := by
        simpa [List.length_eq_zero] using hemp
      simp only [hlen, if_neg, if_false]
      exact subsGet_mapUpd_other subs pattern q (fun _ => l₁ ++ l₂) hq

/-- Witness for C7: pattern `"E"` holding `[4, 9, 4]`, removing `4`. -/
theorem off_unregister_semantics_witness :
    subsGet [("E", [4, 9, 4]), ("F", [2])] "E" = some ([] ++ 4 :: [9, 4])
    ∧ (4 : Handler) ∉ ([] : List Handler)
    ∧ (subsGet (off [("E", [4, 9, 4]), ("F", [2])] "E" none) "E" = none
      ∧ (∀ q, q ≠ "E" →
          subsGet (off [("E", [4, 9, 4]), ("F", [2])] "E" none) q
            = subsGet [("E", [4, 9, 4]), ("F", [2])] q)
      ∧ subsGet (off [("E", [4, 9, 4]), ("F", [2])] "E" (some 4)) "E"
          = (if ([] : List Handler) ++ [9, 4] = [] then none
             else some ([] ++ [9, 4]))
      ∧ (∀ q, q ≠ "E" →
          subsGet (off [("E", [4, 9, 4]), ("F", [2])] "E" (some 4)) q
            = subsGet [("E", [4, 9, 4]), ("F", [2])] q)) :=
  ⟨rfl, by decide,
    off_unregister_semantics [("E", [4, 9, 4]), ("F", [2])] "E" 4 [] [9, 4]
      rfl (by decide)⟩

/-! ## C2 : glob pattern matching -/

theorem gmatch_star_append (ts : List Tok) (pre suf : List Char)
    (hpre : pre.all (fun d => !isLineTerm d) = true) (hm : GMatch ts suf) :
    GMatch (Tok.anyStar :: ts) (pre ++ suf) := by
  induction pre with
  | nil => exact GMatch.starEmpty hm
  | cons d pre ih =>
    simp only [List.all_cons, Bool.and_eq_true] at hpre
    exact GMatch.starCons (by simpa using hpre.1) (ih hpre.2)

theorem gmatch_of_tokMatch (ts : List Tok) :
    ∀ ds, tokMatch ts ds = true → GMatch ts ds := by
  induction ts with
  | nil =>
    intro ds h
    cases ds with
    | nil => exact GMatch.nil
    | cons d ds' => simp [tokMatch] at h
  | cons t ts ih =>
    intro ds h
    match t with
    | Tok.lit c =>
      cases ds with
      | nil => simp [tokMatch] at h
      | cons d ds' =>
        simp only [tokMatch, Bool.and_eq_true, beq_iff_eq] at h
        obtain ⟨hcd, hm⟩ := h
        subst hcd
        exact GMatch.lit (ih ds' hm)
    | Tok.anyOne =>
      cases ds with
      | nil => simp [tokMatch] at h
      | cons d ds' =>
        simp only [tokMatch, Bool.and_eq_true, Bool.not_eq_true'] at h
        obtain ⟨hd, hm⟩ := h
        exact GMatch.one hd (ih ds' hm)
    | Tok.anyStar =>
      rw [tokMatch] at h
      obtain ⟨k, _, hc⟩ := List.any_eq_true.mp h
      simp only [Bool.and_eq_true] at hc
      obtain ⟨hall, hm⟩ := hc
      have h1 : GMatch ts (ds.drop k) := ih _ hm
      have h2 := gmatch_star_append ts (ds.take k) (ds.drop k) hall h1
      rwa [List.take_append_drop] at h2

theorem tokMatch_of_gmatch {ts : List Tok} {ds : List Char}
    (h : GMatch ts ds) : tokMatch ts ds = true := by
  induction h with
  | nil => rfl
  | lit _ ih => simp [tokMatch, ih]
  | one hterm _ ih => simp [tokMatch, hterm, ih]
  | starEmpty _ ih =>
    rw [tokMatch]
    apply List.any_eq_true.mpr
    exact ⟨0, by simp, by simpa using ih⟩
  | starCons hterm _ ih =>
    rw [tokMatch] at ih
    rw [tokMatch]
    obtain ⟨k, hk, hc⟩ := List.any_eq_true.mp ih
    simp only [Bool.and_eq_true] at hc
    obtain ⟨hall, hm⟩ := hc
    apply List.any_eq_true.mpr
    refine ⟨k + 1, ?_, ?_⟩
    · simp only [List.mem_range] at hk ⊢
      simpa using Nat.succ_lt_succ hk
    · simp only [List.take_succ_cons, List.drop_succ_cons, List.all_cons,
        Bool.and_eq_true]
      exact ⟨⟨by simp [hterm], hall⟩, hm⟩

theorem tokMatch_iff_gmatch (ts : List Tok) (ds : List Char) :
    tokMatch ts ds = true ↔ GMatch ts ds :=
  ⟨gmatch_of_tokMatch ts ds, tokMatch_of_gmatch⟩

/-- **C2 counterexample.**  The pattern `"a.c"` is not `"*"` and contains
no `*`, so under the claim's reading (every character other than `*`
matches only itself) it should accept exactly the event type `"a.c"`;
but the matcher accepts `"abc"`, because the unescaped `.` reaches the
regex engine as "any character". -/
theorem matchesPattern_dot_counterexample :
    matchesPattern "abc" "a.c" = true
    ∧ ("a.c" : String) ≠ "*"
    ∧ "a.c".data.contains '*' = false
    ∧ ("abc" : String) ≠ "a.c" := by
  refine ⟨by decide, by decide, by decide, by decide⟩

/-- **C2 (amended).**  For every pattern `P` free of regex
metacharacters other than `.` and `*` (the faithful domain of the
embedding) and every event type `E`: the matcher accepts iff `P` is the
single character `"*"`, or `E` matches `P` in full — anchored at both
ends and case-sensitively — where each `*` of `P` matches any run of
non-line-terminator characters, `.` matches any single
non-line-terminator character, and every other character matches only
itself (the declarative semantics `GMatch` over `globTokens P`). -/
theorem matchesPattern_spec (E P : String)
    (_hsafe : patternRegexSafe P = true) :
    matchesPattern E P = true ↔ (P = "*" ∨ GMatch (globTokens P) E.data) := by
  unfold matchesPattern
  by_cases hP : P = "*"
  · simp [hP]
  · simp only [hP, if_false, false_or]
    exact tokMatch_iff_gmatch _ _

/-- Witness for amended C2 at `E = "pkg::m::Foo"`, `P = "pkg::*::Foo"`. -/
theorem matchesPattern_spec_witness :
    patternRegexSafe "pkg::*::Foo" = true
    ∧ (matchesPattern "pkg::m::Foo" "pkg::*::Foo" = true ↔
        (("pkg::*::Foo" : String) = "*"
          ∨ GMatch (globTokens "pkg::*::Foo") "pkg::m::Foo".data)) :=
  ⟨by decide, matchesPattern_spec "pkg::m::Foo" "pkg::*::Foo" (by decide)⟩

/-! ## C4 : matching precedence -/

theorem matched_glob_foldl (etype : String) (subs : Subs)
    (init : List (Handler × Bool)) :
    subs.foldl
      (fun acc q =>
        if q.1 = "*" then acc
        else if q.1.data.contains '*' && matchesPattern etype q.1 then
          acc ++ q.2.map (fun h => (h, false))
        else acc) init
    = init ++
      ((subs.filter fun q =>
          q.1 != "*" && q.1.data.contains '*' && matchesPattern etype q.1).map
        fun q => q.2.map fun h => (h, false)).flatten := by
  induction subs generalizing init with
  | nil => simp
  | cons q rest ih =>
    by_cases h1 : q.1 = "*"
    · have hcf : (q.1 != "*" && q.1.data.contains '*'
          && matchesPattern etype q.1) = false := by
        rw [h1]
        simp
      rw [List.foldl_cons, if_pos h1, ih, List.filter_cons, hcf]
      simp only [Bool.false_eq_true, if_false]
    · by_cases h2 : (q.1.data.contains '*' && matchesPattern etype q.1) = true
      · have hct : (q.1 != "*" && q.1.data.contains '*'
            && matchesPattern etype q.1) = true := by
          rw [Bool.and_assoc, h2, Bool.and_true]
          simp [bne_iff_ne, h1]
        rw [List.foldl_cons, if_neg h1, if_pos h2, ih, List.filter_cons, hct]
        rw [if_pos rfl]
        simp only [List.map_cons, List.flatten_cons, List.append_assoc]
      · have h2f : (q.1.data.contains '*' && matchesPattern etype q.1)
            = false := by
          simpa using h2
        have hcf : (q.1 != "*" && q.1.data.contains '*'
            && matchesPattern etype q.1) = false := by
          rw [Bool.and_assoc, h2f, Bool.and_false]
        rw [List.foldl_cons, if_neg h1, if_neg h2, ih, List.filter_cons, hcf]
        simp only [Bool.false_eq_true, if_false]

theorem matchedEntries_eq_matchAllSpec (subs : Subs) (etype : String) :
    matchedEntries subs etype = matchAllSpec subs etype := by
  simp only [matchedEntries]
  rw [matched_glob_foldl]
  simp only [matchAllSpec]
  cases hg1 : subsGet subs etype <;>
    cases hg2 : subsGet subs (eventShortName etype) <;>
      cases hg3 : subsGet subs "*" <;>
        simp [hg1, hg2, hg3, List.append_assoc]

/-- **C4.**  The handler entries built for an event type are exactly the
spec's `matchAll`: first every handler under the exact full type, then
every handler under the trailing short name, then every handler under
the universal wildcard `*`, then — in registry insertion order — the
handlers of every other pattern containing `*` that glob-matches the
full type; blocks are concatenated without duplicate suppression, so an
entry matching through several rules fires once per rule.  A dispatched
event's invocation list is this list with each entry's delivery payload
attached. -/
theorem matchAll_precedence_dispatch (st : ClientState)
    (event : SurfluxEvent) (fpe : Option SurfluxPackageEvent)
    (hty : event.type ≠ "")
    (hpass : shouldFilterEventByTimestamp event.timestamp_ms
      st.fromTimestampMs = false) :
    (∀ subs etype, matchedEntries subs etype = matchAllSpec subs etype)
    ∧ (handleEvent st event fpe).2
        = (matchAllSpec st.subscriptions event.type).map
            (fun en => (en.1, deliveredPayload event fpe en.2)) := by
  refine ⟨matchedEntries_eq_matchAllSpec, ?_⟩
  rw [← matchedEntries_eq_matchAllSpec]
  simp [handleEvent, hty, hpass]

/-- Witness for C4 on a registry exercising all four rules. -/
theorem matchAll_precedence_dispatch_witness :
    (⟨"pkg::mod::Foo", none, none, none, JSVal.undefined⟩ : SurfluxEvent).type ≠ ""
    ∧ shouldFilterEventByTimestamp none none = false
    ∧ ((∀ subs etype, matchedEntries subs etype = matchAllSpec subs etype)
      ∧ (handleEvent
          ⟨[("pkg::mod::Foo", [3]), ("Foo", [4]), ("*", [8]),
            ("pkg::*::Foo", [9])], none, none⟩
          ⟨"pkg::mod::Foo", none, none, none, JSVal.undefined⟩ none).2
        = (matchAllSpec
            [("pkg::mod::Foo", [3]), ("Foo", [4]), ("*", [8]),
              ("pkg::*::Foo", [9])] "pkg::mod::Foo").map
            (fun en =>
              (en.1, deliveredPayload
                ⟨"pkg::mod::Foo", none, none, none, JSVal.undefined⟩ none en.2))) :=
  ⟨by decide, rfl,
    matchAll_precedence_dispatch
      ⟨[("pkg::mod::Foo", [3]), ("Foo", [4]), ("*", [8]),
        ("pkg::*::Foo", [9])], none, none⟩
      ⟨"pkg::mod::Foo", none, none, none, JSVal.undefined⟩ none (by decide) rfl⟩

/-! ## C3 : delivered payload views -/

theorem jsGet_of_hasField_false (v : JSVal) (f : String)
    (h : jsHasField v f = false) : jsGet v f = JSVal.undefined := by
  cases v with
  | obj fields =>
    cases hl : fields.lookup f with
    | none => simp [jsGet, hl]
    | some w => simp [jsHasField, hl] at h
  | undefined => rfl
  | null => rfl
  | jbool b => rfl
  | num n => rfl
  | str s => rfl

/-- **C3 counterexample.**  A present-but-falsy `contents`
(`contents: false`) is delivered as the whole `data` object, not as
`data.contents`: `event.data.contents || event.data` tests truthiness,
not presence. -/
theorem dispatch_contents_falsy_counterexample :
    (handleEvent ⟨[("pkg::mod::Foo", [3])], none, none⟩
        ⟨"pkg::mod::Foo", some 5, none, none,
          JSVal.obj [("contents", JSVal.jbool false)]⟩ none).2
      = [(3, HandlerArg.val (JSVal.obj [("contents", JSVal.jbool false)]))]
    ∧ jsHasField (JSVal.obj [("contents", JSVal.jbool false)]) "contents"
        = true
    ∧ HandlerArg.val (JSVal.obj [("contents", JSVal.jbool false)])
        ≠ HandlerArg.val
            (jsGet (JSVal.obj [("contents", JSVal.jbool false)]) "contents") := by
  refine ⟨rfl, rfl, ?_⟩
  simp [jsGet, List.lookup]

/-- **C3 (amended).**  A handler matched through a non-wildcard rule is
invoked with `data.contents` when `contents` is present **and truthy**;
when `contents` is absent — or present but falsy — it is invoked with
the raw `data` object; in every case it receives a plain value, never
the enclosing envelope.  A handler matched through the universal
wildcard receives the rich original payload when the normalizer produced
one, otherwise the full canonical envelope; and a dispatched event's
invocations pair each matched entry with exactly this payload. -/
theorem delivered_payload_views (st : ClientState) (event : SurfluxEvent)
    (fpe : Option SurfluxPackageEvent) (hty : event.type ≠ "")
    (hpass : shouldFilterEventByTimestamp event.timestamp_ms
      st.fromTimestampMs = false) :
    (jsTruthy (jsGet event.data "contents") = true →
      deliveredPayload event fpe false
        = HandlerArg.val (jsGet event.data "contents"))
    ∧ (jsTruthy (jsGet event.data "contents") = false →
      deliveredPayload event fpe false = HandlerArg.val event.data)
    ∧ (jsHasField event.data "contents" = false →
      deliveredPayload event fpe false = HandlerArg.val event.data)
    ∧ (∃ v, deliveredPayload event fpe false = HandlerArg.val v)
    ∧ (∀ p, fpe = some p → deliveredPayload event fpe true = HandlerArg.rich p)
    ∧ (fpe = none → deliveredPayload event fpe true = HandlerArg.canonical event)
    ∧ (handleEvent st event fpe).2
        = (matchedEntries st.subscriptions event.type).map
            (fun en => (en.1, deliveredPayload event fpe en.2)) := by
  refine ⟨?_, ?_, ?_, ?_, ?_, ?_, ?_⟩
  · intro h
    simp [deliveredPayload, h]
  · intro h
    simp [deliveredPayload, h]
  · intro h
    have := jsGet_of_hasField_false event.data "contents" h
    simp [deliveredPayload, this, jsTruthy]
  · by_cases h : jsTruthy (jsGet event.data "contents") = true
    · exact ⟨jsGet event.data "contents", by simp [deliveredPayload, h]⟩
    · exact ⟨event.data, by
        simp only [Bool.not_eq_true] at h
        simp [deliveredPayload, h]⟩
  · intro p hp
    simp [deliveredPayload, hp]
  · intro hp
    simp [deliveredPayload, hp]
  · simp [handleEvent, hty, hpass]

/-- Witness for amended C3: truthy contents delivered contents-only,
rich payload delivered to the wildcard. -/
theorem delivered_payload_views_witness :
    (⟨"pkg::mod::Foo", none, none, none,
        JSVal.obj [("contents", JSVal.num 1)]⟩ : SurfluxEvent).type ≠ ""
    ∧ shouldFilterEventByTimestamp none none = false
    ∧ ((jsTruthy (jsGet (JSVal.obj [("contents", JSVal.num 1)]) "contents")
          = true →
        deliveredPayload
            ⟨"pkg::mod::Foo", none, none, none,
              JSVal.obj [("contents", JSVal.num 1)]⟩
            (some ⟨11, 2, "tx", 0, "s", "pkg::mod::Foo", JSVal.num 1⟩) false
          = HandlerArg.val
              (jsGet (JSVal.obj [("contents", JSVal.num 1)]) "contents"))
      ∧ (jsTruthy (jsGet (JSVal.obj [("contents", JSVal.num 1)]) "contents")
          = false →
        deliveredPayload
            ⟨"pkg::mod::Foo", none, none, none,
              JSVal.obj [("contents", JSVal.num 1)]⟩
            (some ⟨11, 2, "tx", 0, "s", "pkg::mod::Foo", JSVal.num 1⟩) false
          = HandlerArg.val (JSVal.obj [("contents", JSVal.num 1)]))
      ∧ (jsHasField (JSVal.obj [("contents", JSVal.num 1)]) "contents"
          = false →
        deliveredPayload
            ⟨"pkg::mod::Foo", none, none, none,
              JSVal.obj [("contents", JSVal.num 1)]⟩
            (some ⟨11, 2, "tx", 0, "s", "pkg::mod::Foo", JSVal.num 1⟩) false
          = HandlerArg.val (JSVal.obj [("contents", JSVal.num 1)]))
      ∧ (∃ v, deliveredPayload
            ⟨"pkg::mod::Foo", none, none, none,
              JSVal.obj [("contents", JSVal.num 1)]⟩
            (some ⟨11, 2, "tx", 0, "s", "pkg::mod::Foo", JSVal.num 1⟩) false
          = HandlerArg.val v)
      ∧ (∀ p, (some ⟨11, 2, "tx", 0, "s", "pkg::mod::Foo", JSVal.num 1⟩ :
            Option SurfluxPackageEvent) = some p →
        deliveredPayload
            ⟨"pkg::mod::Foo", none, none, none,
              JSVal.obj [("contents", JSVal.num 1)]⟩
            (some ⟨11, 2, "tx", 0, "s", "pkg::mod::Foo", JSVal.num 1⟩) true
          = HandlerArg.rich p)
      ∧ ((some ⟨11, 2, "tx", 0, "s", "pkg::mod::Foo", JSVal.num 1⟩ :
            Option SurfluxPackageEvent) = none →
        deliveredPayload
            ⟨"pkg::mod::Foo", none, none, none,
              JSVal.obj [("contents", JSVal.num 1)]⟩
            (some ⟨11, 2, "tx", 0, "s", "pkg::mod::Foo", JSVal.num 1⟩) true
          = HandlerArg.canonical
              ⟨"pkg::mod::Foo", none, none, none,
                JSVal.obj [("contents", JSVal.num 1)]⟩)
      ∧ (handleEvent ⟨[("Foo", [4])], none, none⟩
            ⟨"pkg::mod::Foo", none, none, none,
              JSVal.obj [("contents", JSVal.num 1)]⟩
            (some ⟨11, 2, "tx", 0, "s", "pkg::mod::Foo", JSVal.num 1⟩)).2
          = (matchedEntries [("Foo", [4])] "pkg::mod::Foo").map
              (fun en =>
                (en.1, deliveredPayload
                  ⟨"pkg::mod::Foo", none, none, none,
                    JSVal.obj [("contents", JSVal.num 1)]⟩
                  (some ⟨11, 2, "tx", 0, "s", "pkg::mod::Foo", JSVal.num 1⟩)
                  en.2))) :=
  ⟨by decide, rfl,
    delivered_payload_views ⟨[("Foo", [4])], none, none⟩
      ⟨"pkg::mod::Foo", none, none, none,
        JSVal.obj [("contents", JSVal.num 1)]⟩
      (some ⟨11, 2, "tx", 0, "s", "pkg::mod::Foo", JSVal.num 1⟩)
      (by decide) rfl⟩

/-! ## C6 : cursor load -/

theorem toDigitsCore_append (b : Nat) :
    ∀ (f n : Nat) (acc : List Char),
      Nat.toDigitsCore b f n acc = Nat.toDigitsCore b f n [] ++ acc := by
  intro f
  induction f with
  | zero => intro n acc; rfl
  | succ f ih =>
    intro n acc
    simp only [Nat.toDigitsCore]
    by_cases h : n / b = 0
    · simp [h]
    · simp only [h, if_false]
      rw [ih (n / b) (Nat.digitChar (n % b) :: acc),
        ih (n / b) [Nat.digitChar (n % b)]]
      simp

theorem toDigitsCore_fuel_irrel (b : Nat) (hb : 2 ≤ b) :
    ∀ (f f' n : Nat) (acc : List Char), n < f → n < f' →
      Nat.toDigitsCore b f n acc = Nat.toDigitsCore b f' n acc := by
  intro f
  induction f with
  | zero =>
    intro f' n acc hf _
    omega
  | succ f ih =>
    intro f' n acc hf hf'
    cases f' with
    | zero => omega
    | succ f' =>
      simp only [Nat.toDigitsCore]
      by_cases h : n / b = 0
      · simp [h]
      · simp only [h, if_false]
        have hn : 0 < n := by
          rcases Nat.eq_zero_or_pos n with h0 | h0
          · subst h0; simp at h
          · exact h0
        have hdiv : n / b < n := Nat.div_lt_self hn (by omega)
        exact ih f' (n / b) _ (by omega) (by omega)

/-- The ten decimal digit characters. -/
def decDigitChars : List Char :=
  ['0', '1', '2', '3', '4', '5', '6', '7', '8', '9']

theorem digitChar_mem_decDigitChars {m : Nat} (h : m < 10) :
    Nat.digitChar m ∈ decDigitChars := by
  interval_cases m <;> decide

theorem decDigitChar_val {c : Char} (h : c ∈ decDigitChars) :
    Char.isDigit c = true ∧ jsIsWhiteSpace c = false ∧ c ≠ '-' ∧ c ≠ '+' := by
  fin_cases h <;> refine ⟨by decide, by decide, by decide, by decide⟩

theorem toDigits_correct (n : Nat) :
    (∀ c ∈ Nat.toDigits 10 n, c ∈ decDigitChars)
    ∧ Nat.toDigits 10 n ≠ []
    ∧ (Nat.toDigits 10 n).foldl
        (fun acc c => acc * 10 + (c.toNat - '0'.toNat)) 0 = n := by
  induction n using Nat.strong_induction_on with
  | _ n ih =>
    have hmod : n % 10 < 10 := Nat.mod_lt _ (by norm_num)
    by_cases h : n / 10 = 0
    · have hsmall : n < 10 := by omega
      have hexp : Nat.toDigits 10 n = [Nat.digitChar (n % 10)] := by
        simp [Nat.toDigits, Nat.toDigitsCore, h]
      refine ⟨?_, ?_, ?_⟩
      · intro c hc
        rw [hexp] at hc
        simp only [List.mem_singleton] at hc
        subst hc
        exact digitChar_mem_decDigitChars hmod
      · rw [hexp]; simp
      · rw [hexp]
        simp only [List.foldl_cons, List.foldl_nil, Nat.zero_mul, Nat.zero_add]
        have := (decDigitChar_val (digitChar_mem_decDigitChars hmod)).1
        have hval : (Nat.digitChar (n % 10)).toNat - '0'.toNat = n % 10 := by
          interval_cases hm : n % 10 <;> decide
        omega
    · have hn : 0 < n := by
        rcases Nat.eq_zero_or_pos n with h0 | h0
        · subst h0; simp at h
        · exact h0
      have hdiv : n / 10 < n := Nat.div_lt_self hn (by norm_num)
      have hexp : Nat.toDigits 10 n
          = Nat.toDigits 10 (n / 10) ++ [Nat.digitChar (n % 10)] := by
        show Nat.toDigitsCore 10 (n + 1) n [] = _
        rw [Nat.toDigitsCore]
        simp only [h, if_false]
        rw [toDigitsCore_append 10 n (n / 10) [Nat.digitChar (n % 10)]]
        congr 1
        exact toDigitsCore_fuel_irrel 10 (by norm_num) n (n / 10 + 1) (n / 10)
          [] hdiv (Nat.lt_succ_self _)
      obtain ⟨ihmem, ihne, ihval⟩ := ih (n / 10) hdiv
      refine ⟨?_, ?_, ?_⟩
      · intro c hc
        rw [hexp] at hc
        rcases List.mem_append.mp hc with hc | hc
        · exact ihmem c hc
        · simp only [List.mem_singleton] at hc
          subst hc
          exact digitChar_mem_decDigitChars hmod
      · rw [hexp]; simp
      · rw [hexp, List.foldl_append, ihval]
        simp only [List.foldl_cons, List.foldl_nil]
        have hval : (Nat.digitChar (n % 10)).toNat - '0'.toNat = n % 10 := by
          interval_cases hm : n % 10 <;> decide
        omega

theorem takeWhile_all_eq {p : Char → Bool} :
    ∀ {l : List Char}, (∀ c ∈ l, p c = true) → l.takeWhile p = l := by
  intro l
  induction l with
  | nil => intro _; rfl
  | cons c t ih =>
    intro h
    rw [List.takeWhile_cons, if_pos (h c (List.mem_cons_self c t))]
    rw [ih (fun d hd => h d (List.mem_cons_of_mem c hd))]

theorem digitsVal_toDigits (n : Nat) :
    digitsVal (Nat.toDigits 10 n) = some n := by
  obtain ⟨hmem, hne, hval⟩ := toDigits_correct n
  unfold digitsVal
  rw [takeWhile_all_eq (fun c hc => (decDigitChar_val (hmem c hc)).1)]
  simp only [List.isEmpty_iff, hne, if_false, hval]

theorem jsParseIntDec_natRepr (n : Nat) :
    jsParseIntDec (Nat.repr n) = some (n : Int) := by
  obtain ⟨hmem, hne, _⟩ := toDigits_correct n
  cases hd : Nat.toDigits 10 n with
  | nil => exact absurd hd hne
  | cons c rest =>
    have hc : c ∈ decDigitChars :=
      hmem c (by rw [hd]; exact List.mem_cons_self c rest)
    obtain ⟨hcdig, hcws, hcminus, hcplus⟩ := decDigitChar_val hc
    have hdv : digitsVal (c :: rest) = some n := by
      rw [← hd]; exact digitsVal_toDigits n
    have hdata : (Nat.repr n).data = c :: rest := by
      show Nat.toDigits 10 n = c :: rest
      exact hd
    unfold jsParseIntDec
    rw [hdata, List.dropWhile_cons, if_neg (by simp [hcws])]
    dsimp only
    rw [if_neg hcminus, if_neg hcplus, hdv]
    rfl

theorem jsParseIntDec_toString_int (n : Int) :
    jsParseIntDec (toString n) = some n := by
  cases n with
  | ofNat m =>
    show jsParseIntDec (Int.repr (Int.ofNat m)) = some (Int.ofNat m)
    rw [Int.repr]
    exact jsParseIntDec_natRepr m
  | negSucc m =>
    show jsParseIntDec (Int.repr (Int.negSucc m)) = some (Int.negSucc m)
    rw [Int.repr]
    have hdata : ("-" ++ Nat.repr (m + 1)).data
        = '-' :: Nat.toDigits 10 (m + 1) := rfl
    unfold jsParseIntDec
    rw [hdata]
    have hws : jsIsWhiteSpace '-' = false := by decide
    rw [List.dropWhile_cons, if_neg (by simp [hws])]
    dsimp only
    rw [if_pos rfl, digitsVal_toDigits (m + 1)]
    rfl

/-- **C6 counterexample.**  The stored value `"12x"` is not a valid
integer string, yet the load returns `12`: `parseInt` parses the longest
leading-integer prefix instead of validating the whole value. -/
theorem load_parseInt_prefix_counterexample :
    loadTimestampFromCache (Except.ok (some "12x")) none = some 12
    ∧ specValidIntegerString "12x" = false := by
  refine ⟨by decide, by decide⟩

/-- **C6 (amended).**  The cursor load returns `undefined` at once —
independently of the cache read — whenever an explicit override
timestamp is set; it returns `undefined` without raising when the read
throws, the key is absent, or the stored value is empty or has no
leading integer (`parseInt` gives `NaN`); otherwise it returns
`parseInt`'s value, the longest leading-integer prefix of the stored
string — in particular every stored value that is the string form of an
integer loads back as exactly that integer. -/
theorem loadTimestamp_spec (o : Int) (r r' : CacheReadOutcome) (s : String)
    (hs : s ≠ "") :
    (loadTimestampFromCache r (some o) = none
      ∧ loadTimestampFromCache r (some o)
          = loadTimestampFromCache r' (some o))
    ∧ loadTimestampFromCache (Except.error ()) none = none
    ∧ loadTimestampFromCache (Except.ok none) none = none
    ∧ loadTimestampFromCache (Except.ok (some "")) none = none
    ∧ (jsParseIntDec s = none →
        loadTimestampFromCache (Except.ok (some s)) none = none)
    ∧ (∀ n, jsParseIntDec s = some n →
        loadTimestampFromCache (Except.ok (some s)) none = some n)
    ∧ (∀ n : Int, loadTimestampFromCache (Except.ok (some (toString n))) none
        = some n) := by
  refine ⟨⟨rfl, rfl⟩, rfl, rfl, rfl, ?_, ?_, ?_⟩
  · intro hp
    simp [loadTimestampFromCache, hs, hp]
  · intro n hp
    simp [loadTimestampFromCache, hs, hp]
  · intro n
    have hne : toString n ≠ "" := by
      intro hcontra
      have := jsParseIntDec_toString_int n
      rw [hcontra] at this
      simp [jsParseIntDec, digitsVal] at this
    simp [loadTimestampFromCache, hne, jsParseIntDec_toString_int n]

/-- Witness for amended C6 at override `50`, stored value `"  42tail"`. -/
theorem loadTimestamp_spec_witness :
    ("  42tail" : String) ≠ ""
    ∧ ((loadTimestampFromCache (Except.error ()) (some 50) = none
        ∧ loadTimestampFromCache (Except.error ()) (some 50)
            = loadTimestampFromCache (Except.ok (some "7")) (some 50))
      ∧ loadTimestampFromCache (Except.error ()) none = none
      ∧ loadTimestampFromCache (Except.ok none) none = none
      ∧ loadTimestampFromCache (Except.ok (some "")) none = none
      ∧ (jsParseIntDec "  42tail" = none →
          loadTimestampFromCache (Except.ok (some "  42tail")) none = none)
      ∧ (∀ n, jsParseIntDec "  42tail" = some n →
          loadTimestampFromCache (Except.ok (some "  42tail")) none = some n)
      ∧ (∀ n : Int, loadTimestampFromCache
          (Except.ok (some (toString n))) none = some n)) :=
  ⟨by decide,
    loadTimestamp_spec 50 (Except.error ()) (Except.ok (some "7"))
      "  42tail" (by decide)⟩

/-! ## C5 : disconnect persists the session maximum -/

theorem handleEvent_preserves (st : ClientState) (e : SurfluxEvent)
    (fpe : Option SurfluxPackageEvent) :
    (handleEvent st e fpe).1.fromTimestampMs = st.fromTimestampMs
    ∧ (handleEvent st e fpe).1.subscriptions = st.subscriptions := by
  by_cases h1 : e.type = ""
  · simp [handleEvent, h1]
  · by_cases h2 : shouldFilterEventByTimestamp e.timestamp_ms
      st.fromTimestampMs = true
    · simp [handleEvent, h1, h2]
    · simp [handleEvent, h1, h2]

theorem processEvents_latest :
    ∀ (evs : List (SurfluxEvent × Option SurfluxPackageEvent))
      (st : ClientState),
      (processEvents st evs).latestTimestampMs
        = (sessionPassedTimestamps st.fromTimestampMs evs).foldl
            (fun acc t => updateLatestTimestamp (some t) acc)
            st.latestTimestampMs := by
  intro evs
  induction evs with
  | nil => intro st; rfl
  | cons ev rest ih =>
    intro st
    show ((ev :: rest).foldl (fun s e => (handleEvent s e.1 e.2).1)
      st).latestTimestampMs = _
    rw [List.foldl_cons]
    by_cases h1 : ev.1.type = ""
    · have hst1 : handleEvent st ev.1 ev.2 = (st, []) := by
        simp [handleEvent, h1]
      rw [hst1]
      have := ih st
      rw [processEvents] at this
      rw [this]
      simp [sessionPassedTimestamps, List.filterMap_cons, h1]
    · by_cases h2 : shouldFilterEventByTimestamp ev.1.timestamp_ms
        st.fromTimestampMs = true
      · have hst1 : handleEvent st ev.1 ev.2 = (st, []) := by
          simp [handleEvent, h1, h2]
        rw [hst1]
        have := ih st
        rw [processEvents] at this
        rw [this]
        simp [sessionPassedTimestamps, List.filterMap_cons, h1, h2]
      · have hst1 : (handleEvent st ev.1 ev.2).1
            = (⟨st.subscriptions, st.fromTimestampMs,
                updateLatestTimestamp ev.1.timestamp_ms
                  st.latestTimestampMs⟩ : ClientState) := by
          simp [handleEvent, h1, h2]
        rw [hst1]
        have := ih ⟨st.subscriptions, st.fromTimestampMs,
          updateLatestTimestamp ev.1.timestamp_ms st.latestTimestampMs⟩
        rw [processEvents] at this
        rw [this]
        cases hts : ev.1.timestamp_ms with
        | none =>
          simp [sessionPassedTimestamps, List.filterMap_cons, h1, h2, hts,
            updateLatestTimestamp]
        | some t =>
          have h2f : shouldFilterEventByTimestamp (some t)
              st.fromTimestampMs = false := by
            rw [← hts]
            simpa using h2
          simp [sessionPassedTimestamps, List.filterMap_cons, h1, h2f, hts,
            List.foldl_cons]

theorem foldl_update_some (l : List Int) :
    ∀ x, l.foldl (fun acc t => updateLatestTimestamp (some t) acc) (some x)
      = some (l.foldl max x) := by
  induction l with
  | nil => intro x; rfl
  | cons t rest ih =>
    intro x
    rw [List.foldl_cons, List.foldl_cons]
    have hupd : updateLatestTimestamp (some t) (some x) = some (max x t) := by
      rcases le_or_lt t x with h | h
      · simp [updateLatestTimestamp, not_lt.mpr h, max_eq_left h]
      · simp [updateLatestTimestamp, h, max_eq_right (le_of_lt h)]
    rw [hupd, ih]

theorem foldl_update_none_eq_max (l : List Int) :
    l.foldl (fun acc t => updateLatestTimestamp (some t) acc) none
      = l.max? := by
  cases l with
  | nil => rfl
  | cons t rest =>
    rw [List.foldl_cons]
    have h0 : updateLatestTimestamp (some t) none = some t := rfl
    rw [h0, foldl_update_some]
    rfl

theorem lookup_cons_self {β : Type} (k : String) (v : β)
    (t : List (String × β)) : List.lookup k ((k, v) :: t) = some v := by
  simp [List.lookup]

theorem lookup_cons_ne {β : Type} {q k : String} (v : β)
    (t : List (String × β)) (hq : q ≠ k) :
    List.lookup q ((k, v) :: t) = List.lookup q t := by
  simp [List.lookup, beq_false_of_ne hq]

theorem cacheGet_map_set_self (c : Cache) (k v : String) :
    ((c.map fun q => if q.1 = k then (k, v) else q).lookup k)
      = (c.lookup k).map (fun _ => v) := by
  induction c with
  | nil => rfl
  | cons q rest ih =>
    obtain ⟨k', w⟩ := q
    by_cases hk : k' = k
    · subst hk
      simp [List.map_cons, lookup_cons_self]
    · have hkk : k ≠ k' := Ne.symm hk
      simp only [List.map_cons, if_neg hk]
      rw [lookup_cons_ne w _ hkk, lookup_cons_ne w rest hkk]
      exact ih

theorem cacheGet_append_self (c : Cache) (k v : String)
    (h : c.lookup k = none) : (c ++ [(k, v)]).lookup k = some v := by
  induction c with
  | nil => exact lookup_cons_self k v []
  | cons q rest ih =>
    obtain ⟨k', w⟩ := q
    by_cases hk : k = k'
    · subst hk
      rw [lookup_cons_self] at h
      simp at h
    · rw [lookup_cons_ne w rest hk] at h
      rw [List.cons_append, lookup_cons_ne w _ hk]
      exact ih h

theorem cacheGet_cacheSet_self (c : Cache) (k v : String) :
    cacheGet (cacheSet c k v) k = some v := by
  unfold cacheGet cacheSet
  cases h : c.lookup k with
  | some w =>
    simp only [h, Option.isSome_some, if_true]
    rw [cacheGet_map_set_self, h]
    rfl
  | none =>
    simp only [h, Option.isSome_none, Bool.false_eq_true, if_false]
    exact cacheGet_append_self c k v h

/-- **C5.**  `disconnect()` always runs the cursor save — also when no
transport is held, i.e. when not connected; starting a session with no
tracked timestamp, the persisted value after `disconnect()` is the
string form of the maximum timestamp among the events that passed the
cursor filter, and when no such event carried a timestamp the cache is
left completely unchanged. -/
theorem disconnect_persists_cursor (fs : FullClientState)
    (evs : List (SurfluxEvent × Option SurfluxPackageEvent))
    (hlat : fs.core.latestTimestampMs = none) :
    (∀ g : FullClientState, (disconnect g).cache
        = saveTimestampToCache g.cache PACKAGE_EVENTS_CACHE_KEY
            g.core.latestTimestampMs)
    ∧ (sessionPassedTimestamps fs.core.fromTimestampMs evs = [] →
        (disconnect { fs with core := processEvents fs.core evs }).cache
          = fs.cache)
    ∧ (∀ m,
        (sessionPassedTimestamps fs.core.fromTimestampMs evs).max? = some m →
        cacheGet
            (disconnect { fs with core := processEvents fs.core evs }).cache
            PACKAGE_EVENTS_CACHE_KEY
          = some (toString m)) := by
  have hlatest : (processEvents fs.core evs).latestTimestampMs
      = (sessionPassedTimestamps fs.core.fromTimestampMs evs).max? := by
    rw [processEvents_latest, hlat, foldl_update_none_eq_max]
  refine ⟨?_, ?_, ?_⟩
  · intro g
    by_cases hg : g.eventSourcePresent
    · simp [disconnect, hg]
    · simp [disconnect, hg]
  · intro hl
    have hn : (processEvents fs.core evs).latestTimestampMs = none := by
      rw [hlatest, hl]
      rfl
    by_cases hg : fs.eventSourcePresent
    · simp [disconnect, hg, saveTimestampToCache, hn]
    · simp [disconnect, hg, saveTimestampToCache, hn]
  · intro m hm
    have hsome : (processEvents fs.core evs).latestTimestampMs = some m := by
      rw [hlatest, hm]
    by_cases hg : fs.eventSourcePresent
    · simp [disconnect, hg, saveTimestampToCache, hsome, cacheGet_cacheSet_self]
    · simp [disconnect, hg, saveTimestampToCache, hsome, cacheGet_cacheSet_self]

/-- Witness for C5: session with one passing timestamp `101` over a
prior cache value; the persisted cursor reads back `"101"`. -/
theorem disconnect_persists_cursor_witness :
    (⟨⟨[], some 100, none⟩, true, true,
        [("surflux_package_events_last_timestamp", "7")]⟩
      : FullClientState).core.latestTimestampMs = none
    ∧ (sessionPassedTimestamps (some 100)
        [(⟨"A", some 101, none, none, JSVal.undefined⟩, none),
         (⟨"B", some 100, none, none, JSVal.undefined⟩, none),
         (⟨"", some 999, none, none, JSVal.undefined⟩, none),
         (⟨"C", none, none, none, JSVal.undefined⟩, none)]).max? = some 101
    ∧ cacheGet
        (disconnect
          ⟨processEvents ⟨[], some 100, none⟩
              [(⟨"A", some 101, none, none, JSVal.undefined⟩, none),
               (⟨"B", some 100, none, none, JSVal.undefined⟩, none),
               (⟨"", some 999, none, none, JSVal.undefined⟩, none),
               (⟨"C", none, none, none, JSVal.undefined⟩, none)],
            true, true,
            [("surflux_package_events_last_timestamp", "7")]⟩).cache
        "surflux_package_events_last_timestamp"
      = some (toString (101 : Int)) :=
  ⟨rfl, rfl,
    (disconnect_persists_cursor
      ⟨⟨[], some 100, none⟩, true, true,
        [("surflux_package_events_last_timestamp", "7")]⟩
      [(⟨"A", some 101, none, none, JSVal.undefined⟩, none),
       (⟨"B", some 100, none, none, JSVal.undefined⟩, none),
       (⟨"", some 999, none, none, JSVal.undefined⟩, none),
       (⟨"C", none, none, none, JSVal.undefined⟩, none)] rfl).2.2 101 rfl⟩

/-! ## C9 : handler isolation -/

theorem dispatchLoop_projection (behave : Handler → HandlerArg → HandlerOutcome) :
    ∀ invs, (dispatchLoop behave invs).map (fun inv => (inv.1, inv.2.1))
      = invs := by
  intro invs
  induction invs with
  | nil => rfl
  | cons inv rest ih =>
    obtain ⟨h, a⟩ := inv
    simp [dispatchLoop, ih]

theorem processEventsLog_state (behave : Handler → HandlerArg → HandlerOutcome) :
    ∀ (evs : List (SurfluxEvent × Option SurfluxPackageEvent))
      (st : ClientState),
      (processEventsLog behave st evs).1 = processEvents st evs := by
  intro evs
  induction evs with
  | nil => intro st; rfl
  | cons ev rest ih =>
    intro st
    show (processEventsLog behave (handleEvent st ev.1 ev.2).1 rest).1 = _
    rw [ih]
    rfl

/-- **C9.**  Handler isolation: in the dispatch loop every matched entry
is invoked exactly once with its own payload, whatever any other
handler's outcome — a throw is recorded (logged) in place and the loop
continues — and across a whole session both the final client state and
the sequence of (handler, payload) invocations are independent of which
handlers throw; no handler exception ever reaches the client state or
the caller. -/
theorem dispatch_isolation
    (behave behave' : Handler → HandlerArg → HandlerOutcome)
    (pre suf : List (Handler × HandlerArg)) (h : Handler) (a : HandlerArg)
    (st : ClientState)
    (evs : List (SurfluxEvent × Option SurfluxPackageEvent)) :
    dispatchLoop behave (pre ++ (h, a) :: suf)
      = dispatchLoop behave pre ++ (h, a, behave h a) :: dispatchLoop behave suf
    ∧ (processEventsLog behave st evs).1 = processEvents st evs
    ∧ (processEventsLog behave st evs).1 = (processEventsLog behave' st evs).1
    ∧ (processEventsLog behave st evs).2.map (fun inv => (inv.1, inv.2.1))
      = (processEventsLog behave' st evs).2.map (fun inv => (inv.1, inv.2.1)) := by
  refine ⟨?_, processEventsLog_state behave evs st, ?_, ?_⟩
  · induction pre with
    | nil => rfl
    | cons q rest ih =>
      obtain ⟨hq, aq⟩ := q
      show (hq, aq, behave hq aq) :: dispatchLoop behave (rest ++ (h, a) :: suf)
        = _
      rw [ih]
      rfl
  · rw [processEventsLog_state behave evs st,
      processEventsLog_state behave' evs st]
  · induction evs generalizing st with
    | nil => rfl
    | cons ev rest ih =>
      have hl : (processEventsLog behave st (ev :: rest)).2
          = dispatchLoop behave (handleEvent st ev.1 ev.2).2
            ++ (processEventsLog behave (handleEvent st ev.1 ev.2).1 rest).2 :=
        rfl
      have hr : (processEventsLog behave' st (ev :: rest)).2
          = dispatchLoop behave' (handleEvent st ev.1 ev.2).2
            ++ (processEventsLog behave' (handleEvent st ev.1 ev.2).1 rest).2 :=
        rfl
      rw [hl, hr, List.map_append, List.map_append, dispatchLoop_projection,
        dispatchLoop_projection, ih]

/-! ## C8 : the waiter settles exactly once -/

theorem subsGet_mem {subs : Subs} {k : String} {v : List Handler}
    (h : subsGet subs k = some v) : (k, v) ∈ subs := by
  induction subs with
  | nil => simp [subsGet, List.lookup] at h
  | cons q rest ih =>
    obtain ⟨k', v'⟩ := q
    by_cases hk : k = k'
    · subst hk
      rw [subsGet_cons_self] at h
      injection h with h
      subst h
      exact List.mem_cons_self _ _
    · rw [subsGet_cons_ne v' rest hk] at h
      exact List.mem_cons_of_mem _ (ih h)

theorem matchedEntries_mem_subs {subs : Subs} {etype : String}
    {en : Handler × Bool} (hen : en ∈ matchedEntries subs etype) :
    ∃ q ∈ subs, en.1 ∈ q.2 := by
  rw [matchedEntries_eq_matchAllSpec] at hen
  unfold matchAllSpec at hen
  simp only [List.mem_append] at hen
  rcases hen with ((h1 | h2) | h3) | h4
  · cases hg : subsGet subs etype with
    | none => rw [hg] at h1; simp at h1
    | some hs =>
      rw [hg] at h1
      simp only [Option.getD_some] at h1
      obtain ⟨h', hh', heq⟩ := List.mem_map.mp h1
      subst heq
      exact ⟨(etype, hs), subsGet_mem hg, hh'⟩
  · cases hg : subsGet subs (eventShortName etype) with
    | none => rw [hg] at h2; simp at h2
    | some hs =>
      rw [hg] at h2
      simp only [Option.getD_some] at h2
      obtain ⟨h', hh', heq⟩ := List.mem_map.mp h2
      subst heq
      exact ⟨(eventShortName etype, hs), subsGet_mem hg, hh'⟩
  · cases hg : subsGet subs "*" with
    | none => rw [hg] at h3; simp at h3
    | some hs =>
      rw [hg] at h3
      simp only [Option.getD_some] at h3
      obtain ⟨h', hh', heq⟩ := List.mem_map.mp h3
      subst heq
      exact ⟨("*", hs), subsGet_mem hg, hh'⟩
  · obtain ⟨l, hl, hel⟩ := List.mem_flatten.mp h4
    obtain ⟨q, hqf, rfl⟩ := List.mem_map.mp hl
    obtain ⟨h', hh', heq⟩ := List.mem_map.mp hel
    subst heq
    exact ⟨q, (List.mem_filter.mp hqf).1, hh'⟩

theorem handleEvent_inv_mem {st : ClientState} {e : SurfluxEvent}
    {fpe : Option SurfluxPackageEvent} {inv : Handler × HandlerArg}
    (hinv : inv ∈ (handleEvent st e fpe).2) :
    ∃ q ∈ st.subscriptions, inv.1 ∈ q.2 := by
  by_cases h1 : e.type = ""
  · simp [handleEvent, h1] at hinv
  · by_cases h2 : shouldFilterEventByTimestamp e.timestamp_ms
      st.fromTimestampMs = true
    · simp [handleEvent, h1, h2] at hinv
    · have hinv' : (handleEvent st e fpe).2
          = (matchedEntries st.subscriptions e.type).map
              (fun en => (en.1, deliveredPayload e fpe en.2)) := by
        simp [handleEvent, h1, h2]
      rw [hinv'] at hinv
      obtain ⟨en, hen, heq⟩ := List.mem_map.mp hinv
      subst heq
      exact matchedEntries_mem_subs hen

theorem onReg_cons_ne (k : String) (v : List Handler) (t : Subs)
    (p : String) (h : Handler) (hk : k ≠ p) :
    onReg ((k, v) :: t) p h = (k, v) :: onReg t p h := by
  unfold onReg
  rw [subsGet_cons_ne v t (Ne.symm hk)]
  cases hg : subsGet t p with
  | none =>
    simp only [hg, Option.isSome_none, Bool.false_eq_true, if_false,
      List.cons_append]
  | some hs =>
    simp only [hg, Option.isSome_some, if_true, List.map_cons, if_neg hk]

theorem off_cons_ne (k : String) (v : List Handler) (t : Subs) (p : String)
    (oh : Option Handler) (hk : k ≠ p) :
    off ((k, v) :: t) p oh = (k, v) :: off t p oh := by
  cases oh with
  | none =>
    show subsDelete ((k, v) :: t) p = (k, v) :: subsDelete t p
    exact subsDelete_cons_ne v t hk
  | some h =>
    unfold off
    rw [subsGet_cons_ne v t (Ne.symm hk)]
    cases hg : subsGet t p with
    | none => rfl
    | some hs =>
      simp only [hg]
      by_cases hemp : (hs.erase h).length = 0
      · simp [hemp, subsDelete_cons_ne v t hk]
      · simp [hemp, List.map_cons, if_neg hk]

theorem mapUpd_id_of_no_key (t : Subs) (p : String)
    (f : List Handler → List Handler) (hp : ∀ q ∈ t, q.1 ≠ p) :
    (t.map fun q => if q.1 = p then (q.1, f q.2) else q) = t := by
  induction t with
  | nil => rfl
  | cons q rest ih =>
    rw [List.map_cons, if_neg (hp q (List.mem_cons_self q rest)),
      ih (fun r hr => hp r (List.mem_cons_of_mem q hr))]

theorem off_some_eq (subs : Subs) (p : String) (h : Handler)
    (hs : List Handler) (hg : subsGet subs p = some hs) :
    off subs p (some h)
      = (if (hs.erase h).length = 0 then subsDelete subs p
         else subs.map (fun q => if q.1 = p then (q.1, hs.erase h) else q)) := by
  unfold off
  rw [hg]

theorem off_fresh_noop (subs : Subs) (p : String) (h : Handler)
    (hf : HandlerFresh subs h) (hwf : ∀ q ∈ subs, q.2 ≠ [])
    (hkeys : (subs.map Prod.fst).Nodup) :
    off subs p (some h) = subs := by
  induction subs with
  | nil => rfl
  | cons q rest ih =>
    obtain ⟨k, v⟩ := q
    have hfrest : HandlerFresh rest h :=
      fun r hr => hf r (List.mem_cons_of_mem _ hr)
    have hwfrest : ∀ r ∈ rest, r.2 ≠ [] :=
      fun r hr => hwf r (List.mem_cons_of_mem _ hr)
    rw [List.map_cons, List.nodup_cons] at hkeys
    by_cases hk : k = p
    · subst hk
      have hnokey : ∀ r ∈ rest, r.1 ≠ k := fun r hr heq =>
        hkeys.1 (by rw [← heq]; exact List.mem_map.mpr ⟨r, hr, rfl⟩)
      have hhv : h ∉ v := hf (k, v) (List.mem_cons_self _ _)
      have hvne : v ≠ [] := hwf (k, v) (List.mem_cons_self _ _)
      rw [off_some_eq ((k, v) :: rest) k h v (subsGet_cons_self k v rest)]
      rw [List.erase_of_not_mem hhv]
      have hlen : ¬ v.length = 0 := by
        simpa [List.length_eq_zero] using hvne
      rw [if_neg hlen, List.map_cons]
      have hhead : (if ((k, v) : String × List Handler).1 = k
          then ((k, v).1, v) else (k, v)) = (k, v) := by
        split <;> rfl
      rw [hhead, mapUpd_id_of_no_key rest k (fun _ => v) hnokey]
    · rw [off_cons_ne k v rest p (some h) hk]
      rw [ih hfrest hwfrest hkeys.2]

theorem off_onReg_fresh (subs : Subs) (p : String) (h : Handler)
    (hf : HandlerFresh subs h) (hwf : ∀ q ∈ subs, q.2 ≠ [])
    (hkeys : (subs.map Prod.fst).Nodup) :
    off (onReg subs p h) p (some h) = subs := by
  induction subs with
  | nil =>
    have h1 : onReg [] p h = [(p, [h])] := rfl
    rw [h1, off_some_eq [(p, [h])] p h [h] (subsGet_cons_self p [h] [])]
    simp [List.erase_cons_head, subsDelete]
  | cons q rest ih =>
    obtain ⟨k, v⟩ := q
    have hfrest : HandlerFresh rest h :=
      fun r hr => hf r (List.mem_cons_of_mem _ hr)
    have hwfrest : ∀ r ∈ rest, r.2 ≠ [] :=
      fun r hr => hwf r (List.mem_cons_of_mem _ hr)
    rw [List.map_cons, List.nodup_cons] at hkeys
    by_cases hk : k = p
    · subst hk
      have hnokey : ∀ r ∈ rest, r.1 ≠ k := fun r hr heq =>
        hkeys.1 (by rw [← heq]; exact List.mem_map.mpr ⟨r, hr, rfl⟩)
      have hhv : h ∉ v := hf (k, v) (List.mem_cons_self _ _)
      have hvne : v ≠ [] := hwf (k, v) (List.mem_cons_self _ _)
      have honreg : onReg ((k, v) :: rest) k h = (k, v ++ [h]) :: rest := by
        unfold onReg
        rw [subsGet_cons_self]
        simp only [Option.isSome_some, if_true, List.map_cons]
        rw [mapUpd_id_of_no_key rest k (fun l => l ++ [h]) hnokey]
      rw [honreg]
      rw [off_some_eq ((k, v ++ [h]) :: rest) k h (v ++ [h])
        (subsGet_cons_self k (v ++ [h]) rest)]
      have herase : (v ++ [h]).erase h = v := by
        rw [List.erase_append_right _ hhv, List.erase_cons_head,
          List.append_nil]
      rw [herase]
      have hlen : ¬ v.length = 0 := by
        simpa [List.length_eq_zero] using hvne
      rw [if_neg hlen, List.map_cons]
      have hhead : (if ((k, v ++ [h]) : String × List Handler).1 = k
          then ((k, v ++ [h]).1, v) else (k, v ++ [h])) = (k, v) := by
        split
        · rfl
        · exact absurd rfl (by assumption)
      rw [hhead, mapUpd_id_of_no_key rest k (fun _ => v) hnokey]
    · rw [onReg_cons_ne k v rest p h hk,
        off_cons_ne k v (onReg rest p h) p (some h) hk,
        ih hfrest hwfrest hkeys.2]

theorem waitFold_skip (hh : Handler) :
    ∀ (invs : List (Handler × HandlerArg)) (w : WaitState),
      (∀ inv ∈ invs, inv.1 ≠ hh) →
      invs.foldl (fun acc inv =>
        if inv.1 = hh then waiterHandlerEffect acc inv.2 else acc) w = w := by
  intro invs
  induction invs with
  | nil => intro w _; rfl
  | cons inv rest ih =>
    intro w hno
    rw [List.foldl_cons, if_neg (hno inv (List.mem_cons_self inv rest))]
    exact ih w (fun i hi => hno i (List.mem_cons_of_mem inv hi))

theorem waiterHandlerEffect_settled (w : WaitState) (a : HandlerArg)
    (r : Settle) (hres : w.result = some r) (hT : w.timerActive = false)
    (hsubs : off w.client.subscriptions w.pattern (some w.h)
      = w.client.subscriptions) :
    waiterHandlerEffect w a = w := by
  obtain ⟨⟨subs, fromT, lat⟩, pat, hh, tA, res⟩ := w
  simp only at hres hT hsubs
  subst hres hT
  unfold waiterHandlerEffect promiseSettle
  simp [hsubs]

theorem waitFold_inert (hh : Handler) :
    ∀ (invs : List (Handler × HandlerArg)) (w : WaitState) (r : Settle),
      w.h = hh → w.result = some r → w.timerActive = false →
      off w.client.subscriptions w.pattern (some w.h)
        = w.client.subscriptions →
      invs.foldl (fun acc inv =>
        if inv.1 = hh then waiterHandlerEffect acc inv.2 else acc) w = w := by
  intro invs
  induction invs with
  | nil => intro w r _ _ _ _; rfl
  | cons inv rest ih =>
    intro w r hhh hres hT hoff
    rw [List.foldl_cons]
    by_cases hi : inv.1 = hh
    · rw [if_pos hi, waiterHandlerEffect_settled w inv.2 r hres hT hoff]
      exact ih w r hhh hres hT hoff
    · rw [if_neg hi]
      exact ih w r hhh hres hT hoff

theorem waitStep_fields (w : WaitState) (t : WaitTrigger) :
    (waitStep w t).h = w.h ∧ (waitStep w t).pattern = w.pattern := by
  cases t with
  | timerFire =>
    by_cases hT : w.timerActive
    · simp [waitStep, hT]
    · simp [waitStep, hT]
  | ev e fpe =>
    show ((((handleEvent w.client e fpe).2).foldl (fun acc inv =>
      if inv.1 = w.h then waiterHandlerEffect acc inv.2 else acc)
        { w with client := (handleEvent w.client e fpe).1 }).h = w.h) ∧ _
    have hgen : ∀ (invs : List (Handler × HandlerArg)) (w' : WaitState),
        ((invs.foldl (fun acc inv =>
          if inv.1 = w.h then waiterHandlerEffect acc inv.2 else acc) w').h
            = w'.h)
        ∧ ((invs.foldl (fun acc inv =>
            if inv.1 = w.h then waiterHandlerEffect acc inv.2 else acc)
              w').pattern = w'.pattern) := by
      intro invs
      induction invs with
      | nil => intro w'; exact ⟨rfl, rfl⟩
      | cons inv rest ih =>
        intro w'
        rw [List.foldl_cons]
        by_cases hi : inv.1 = w.h
        · rw [if_pos hi]
          have := ih (waiterHandlerEffect w' inv.2)
          simpa [waiterHandlerEffect] using this
        · rw [if_neg hi]
          exact ih w'
    exact hgen (handleEvent w.client e fpe).2
      { w with client := (handleEvent w.client e fpe).1 }

theorem waitRun_inert :
    ∀ (ts : List WaitTrigger) (w : WaitState),
      HandlerFresh w.client.subscriptions w.h → w.timerActive = false →
      (waitRun w ts).result = w.result
      ∧ (waitRun w ts).client.subscriptions = w.client.subscriptions
      ∧ (waitRun w ts).timerActive = false
      ∧ runInvokesH w ts = 0 := by
  intro ts
  induction ts with
  | nil => intro w _ hT; exact ⟨rfl, rfl, hT, rfl⟩
  | cons t rest ih =>
    intro w hf hT
    have hstep : (waitStep w t).result = w.result
        ∧ (waitStep w t).client.subscriptions = w.client.subscriptions
        ∧ (waitStep w t).timerActive = w.timerActive
        ∧ stepInvokesH w t = 0 := by
      cases t with
      | timerFire =>
        refine ⟨?_, ?_, ?_, rfl⟩ <;> simp [waitStep, hT]
      | ev e fpe =>
        have hno : ∀ inv ∈ (handleEvent w.client e fpe).2, inv.1 ≠ w.h := by
          intro inv hinv heq
          obtain ⟨q, hq, hmem⟩ := handleEvent_inv_mem hinv
          exact hf q hq (heq ▸ hmem)
        have hfold := waitFold_skip w.h (handleEvent w.client e fpe).2
          { w with client := (handleEvent w.client e fpe).1 } hno
        have hw : waitStep w (WaitTrigger.ev e fpe)
            = { w with client := (handleEvent w.client e fpe).1 } := hfold
        refine ⟨?_, ?_, ?_, ?_⟩
        · rw [hw]
        · rw [hw]
          exact (handleEvent_preserves w.client e fpe).2
        · rw [hw]
        · unfold stepInvokesH
          rw [List.length_eq_zero]
          rw [List.filter_eq_nil_iff]
          intro inv hinv
          simp [hno inv hinv]
    obtain ⟨hr, hs, ht2, hi0⟩ := hstep
    have hf' : HandlerFresh (waitStep w t).client.subscriptions
        (waitStep w t).h := by
      rw [hs, (waitStep_fields w t).1]
      exact hf
    have ih' := ih (waitStep w t) hf' (ht2.trans hT)
    refine ⟨?_, ?_, ?_, ?_⟩
    · show (waitRun (waitStep w t) rest).result = w.result
      rw [ih'.1, hr]
    · show (waitRun (waitStep w t) rest).client.subscriptions = _
      rw [ih'.2.1, hs]
    · show (waitRun (waitStep w t) rest).timerActive = false
      exact ih'.2.2.1
    · show stepInvokesH w t + runInvokesH (waitStep w t) rest = 0
      rw [hi0, ih'.2.2.2]

/-- **C8.**  `waitFor`'s one-shot contract, from the freshly registered
waiter state: (1) an event whose dispatch invokes the waiter's handler
settles the promise with the first delivered payload, removes the
handler — restoring the registry exactly — and cancels the timer, even
when the same dispatch invokes the handler more than once; (2) the
armed timer firing settles the promise with the timeout failure and
removes the handler the same way; (3) from any settled state whose
registry no longer holds the handler and whose timer is dead — the
state both settlement paths produce — every further trace of events and
timer firings leaves the settlement unchanged, leaves the registry
unchanged, and never invokes the handler again. -/
theorem waitFor_settles_once (st : ClientState) (pattern : String)
    (h : Handler) (hasT : Bool)
    (hf : HandlerFresh st.subscriptions h)
    (hwf : ∀ q ∈ st.subscriptions, q.2 ≠ [])
    (hkeys : (st.subscriptions.map Prod.fst).Nodup) :
    (∀ e fpe pre rest a,
      (handleEvent (waitForStart st pattern h hasT).client e fpe).2
          = pre ++ (h, a) :: rest →
      (∀ inv ∈ pre, inv.1 ≠ h) →
      (waitStep (waitForStart st pattern h hasT)
          (WaitTrigger.ev e fpe)).result = some (Settle.resolved a)
      ∧ (waitStep (waitForStart st pattern h hasT)
          (WaitTrigger.ev e fpe)).client.subscriptions = st.subscriptions
      ∧ (waitStep (waitForStart st pattern h hasT)
          (WaitTrigger.ev e fpe)).timerActive = false)
    ∧ ((waitStep (waitForStart st pattern h true)
          WaitTrigger.timerFire).result = some Settle.timedOut
      ∧ (waitStep (waitForStart st pattern h true)
          WaitTrigger.timerFire).client.subscriptions = st.subscriptions
      ∧ (waitStep (waitForStart st pattern h true)
          WaitTrigger.timerFire).timerActive = false)
    ∧ (∀ (w : WaitState) (ts : List WaitTrigger),
        HandlerFresh w.client.subscriptions w.h → w.timerActive = false →
        (waitRun w ts).result = w.result
        ∧ (waitRun w ts).client.subscriptions = w.client.subscriptions
        ∧ runInvokesH w ts = 0) := by
  have hoffon : off (onReg st.subscriptions pattern h) pattern (some h)
      = st.subscriptions := off_onReg_fresh st.subscriptions pattern h
    hf hwf hkeys
  have hoffst : off st.subscriptions pattern (some h) = st.subscriptions :=
    off_fresh_noop st.subscriptions pattern h hf hwf hkeys
  refine ⟨?_, ?_, ?_⟩
  · intro e fpe pre rest a hdec hpre
    have hsubs1 : (handleEvent (waitForStart st pattern h
        hasT).client e fpe).1.subscriptions
          = onReg st.subscriptions pattern h :=
      (handleEvent_preserves _ e fpe).2
    have hw : waitStep (waitForStart st pattern h hasT) (WaitTrigger.ev e fpe)
        = ((handleEvent (waitForStart st pattern h hasT).client e fpe).2).foldl
            (fun acc inv => if inv.1 = h then waiterHandlerEffect acc inv.2
              else acc)
            { waitForStart st pattern h hasT with
              client := (handleEvent (waitForStart st pattern h
                hasT).client e fpe).1 } := rfl
    rw [hw, hdec, List.foldl_append, waitFold_skip h pre _ hpre,
      List.foldl_cons, if_pos rfl]
    set w1 : WaitState :=
      { waitForStart st pattern h hasT with
        client := (handleEvent (waitForStart st pattern h
          hasT).client e fpe).1 } with hw1
    have heff : waiterHandlerEffect w1 a
        = { w1 with
            timerActive := false,
            client := { w1.client with
              subscriptions := st.subscriptions },
            result := some (Settle.resolved a) } := by
      unfold waiterHandlerEffect
      have : off w1.client.subscriptions w1.pattern (some w1.h)
          = st.subscriptions := by
        show off (handleEvent (waitForStart st pattern h
          hasT).client e fpe).1.subscriptions pattern (some h)
            = st.subscriptions
        rw [hsubs1]
        exact hoffon
      rw [this]
      rfl
    rw [heff]
    have hinert := waitFold_inert h rest
      { w1 with
        timerActive := false,
        client := { w1.client with subscriptions := st.subscriptions },
        result := some (Settle.resolved a) }
      (Settle.resolved a) rfl rfl rfl (by simpa using hoffst)
    rw [hinert]
    exact ⟨rfl, rfl, rfl⟩
  · have hstep : waitStep (waitForStart st pattern h true) WaitTrigger.timerFire
        = ⟨⟨off (onReg st.subscriptions pattern h) pattern (some h),
            st.fromTimestampMs, st.latestTimestampMs⟩,
           pattern, h, false, some Settle.timedOut⟩ := rfl
    rw [hstep]
    exact ⟨rfl, hoffon, rfl⟩
  · intro w ts hfw hT
    obtain ⟨h1, h2, _, h4⟩ := waitRun_inert ts w hfw hT
    exact ⟨h1, h2, h4⟩

/-- Witness for C8: waiter on `"Foo"`, handler `5`, over a registry
holding `("Other", [1])`; the matching event settles once. -/
theorem waitFor_settles_once_witness :
    HandlerFresh ([("Other", [1])] : Subs) 5
    ∧ (∀ q ∈ ([("Other", [1])] : Subs), q.2 ≠ [])
    ∧ ((([("Other", [1])] : Subs).map Prod.fst).Nodup)
    ∧ ((∀ e fpe pre rest a,
        (handleEvent (waitForStart ⟨[("Other", [1])], none, none⟩
            "Foo" 5 true).client e fpe).2 = pre ++ (5, a) :: rest →
        (∀ inv ∈ pre, inv.1 ≠ 5) →
        (waitStep (waitForStart ⟨[("Other", [1])], none, none⟩ "Foo" 5 true)
            (WaitTrigger.ev e fpe)).result = some (Settle.resolved a)
        ∧ (waitStep (waitForStart ⟨[("Other", [1])], none, none⟩ "Foo" 5 true)
            (WaitTrigger.ev e fpe)).client.subscriptions = [("Other", [1])]
        ∧ (waitStep (waitForStart ⟨[("Other", [1])], none, none⟩ "Foo" 5 true)
            (WaitTrigger.ev e fpe)).timerActive = false)
      ∧ ((waitStep (waitForStart ⟨[("Other", [1])], none, none⟩ "Foo" 5 true)
            WaitTrigger.timerFire).result = some Settle.timedOut
        ∧ (waitStep (waitForStart ⟨[("Other", [1])], none, none⟩ "Foo" 5 true)
            WaitTrigger.timerFire).client.subscriptions = [("Other", [1])]
        ∧ (waitStep (waitForStart ⟨[("Other", [1])], none, none⟩ "Foo" 5 true)
            WaitTrigger.timerFire).timerActive = false)
      ∧ (∀ (w : WaitState) (ts : List WaitTrigger),
          HandlerFresh w.client.subscriptions w.h → w.timerActive = false →
          (waitRun w ts).result = w.result
          ∧ (waitRun w ts).client.subscriptions = w.client.subscriptions
          ∧ runInvokesH w ts = 0)) :=
  ⟨by unfold HandlerFresh; decide, by decide, by decide,
    waitFor_settles_once ⟨[("Other", [1])], none, none⟩ "Foo" 5 true
      (by unfold HandlerFresh; decide) (by decide) (by decide)⟩

end Surflux

